import Mathlib

/-!
Shallow embedding of the core of `src/app.py` (text_compare).

Modelled functions, keeping the source's names:
* `normalize_number`  — `float(num_str)` wrapped in try/except (app.py 34-38);
* `tokenize`          — `re.findall(r'\b\w+[\.\w]*\b|[^\w\s]', s)` (app.py 41-42);
* `highlight_differences` — the positional token differ (app.py 40-76);
* `ratio`             — `difflib.SequenceMatcher(None, a, b).ratio()`;
* `match_sentences_full`  — the greedy sentence aligner (app.py 78-105).

Modelling conventions: Python floats are modelled exactly, as rationals
plus the special values inf, negative inf and nan (`PyFloat`); `SequenceMatcher` is
modelled without the autojunk heuristic, which only affects right-hand
strings of length >= 200 (its junk-extension loops are no-ops when the
junk set is empty); character classes (`\w`, `\s`, lower-casing) use
their ASCII semantics (`\s` is the six ASCII whitespace characters).
Parsed numeric strings are converted to the nearest IEEE-754 binary64
value (round half to even, overflowing to inf, underflowing to zero),
with finite doubles represented by their exact rational value. Python's
`set` of used indices is modelled as a `List ℕ` used only through
membership, matching the source's use.
-/

namespace TextCompare

/-! ### difflib.SequenceMatcher model -/

/-- Model of `a[i] == b[j]`, false when either index is out of range. -/
def chEq (a b : List Char) (i j : ℕ) : Bool :=
  match a.get? i, b.get? j with
  | some x, some y => x == y
  | _, _ => false

/-- State of `find_longest_match`'s outer loop: current best block
`(besti, bestj, bestsize)` and the previous row's `j2len` dictionary
(total function, absent keys read as 0, as `dict.get(j-1, 0)` does). -/
structure FlmState where
  besti : ℕ
  bestj : ℕ
  bestsize : ℕ
  j2len : ℕ → ℕ

/-- The value `k = j2len.get(j-1, 0) + 1`: the matching-run length ending at
column `j` of the current row, from the previous row's `j2len`. -/
def flmK (st : FlmState) (j : ℕ) : ℕ :=
  (if j = 0 then 0 else st.j2len (j - 1)) + 1

/-- One inner-loop step at column `j`: on a character match, record the
block ending here when strictly longer than the current best. -/
def flmStep (a b : List Char) (i : ℕ) (st : FlmState) (s : FlmState) (j : ℕ) : FlmState :=
  if chEq a b i j then
    if flmK st j > s.bestsize then
      ⟨i + 1 - flmK st j, j + 1 - flmK st j, flmK st j, s.j2len⟩
    else s
  else s

/-- One iteration `i` of `find_longest_match`'s outer loop: scan the
positions `j ∈ [blo, bhi)` with `b[j] == a[i]` in increasing order,
updating the best on strict improvement, then replace `j2len` by this
row's `newj2len`. -/
def flmRow (a b : List Char) (blo bhi : ℕ) (st : FlmState) (i : ℕ) : FlmState :=
  let st' := (List.range' blo (bhi - blo)).foldl (flmStep a b i st) st
  { st' with j2len := fun j =>
      if blo ≤ j ∧ j < bhi ∧ chEq a b i j then flmK st j else 0 }

/-- Model of `SequenceMatcher.find_longest_match` on the window
`a[alo:ahi] × b[blo:bhi]`, with an empty junk set (the four junk
extension loops of the original are no-ops in that case). -/
def find_longest_match (a b : List Char) (alo ahi blo bhi : ℕ) : ℕ × ℕ × ℕ :=
  let st := (List.range' alo (ahi - alo)).foldl (flmRow a b blo bhi) ⟨alo, blo, 0, fun _ => 0⟩
  (st.besti, st.bestj, st.bestsize)

/-- Total number of matched characters found by the recursive
longest-matching-block decomposition of `get_matching_blocks`
(the sum of the block sizes, which is all `ratio` consumes).
`fuel` bounds the recursion depth; every call site supplies enough. -/
def matchesFrom (a b : List Char) : ℕ → ℕ → ℕ → ℕ → ℕ → ℕ
  | 0, _, _, _, _ => 0
  | fuel + 1, alo, ahi, blo, bhi =>
    let r := find_longest_match a b alo ahi blo bhi
    if r.2.2 = 0 then 0
    else
      matchesFrom a b fuel alo r.1 blo r.2.1 + r.2.2 +
        matchesFrom a b fuel (r.1 + r.2.2) ahi (r.2.1 + r.2.2) bhi

/-- Model of `SequenceMatcher(None, a, b).ratio()`: `2*M / T` where `M` is the
number of matched characters and `T` the total length; `1` when both
strings are empty (`_calculate_ratio`). -/
def ratio (sa sb : String) : ℚ :=
  let a := sa.data
  let b := sb.data
  let total := a.length + b.length
  if total = 0 then 1
  else (2 * (matchesFrom a b (total + 1) 0 a.length 0 b.length) : ℚ) / (total : ℚ)

/-! ### normalize_number: Python `float()` -/

/-- A Python float as produced by `float(str)`: a finite value (modelled
exactly as a rational rather than an IEEE double), or one of the
special values inf, negative inf, nan. -/
inductive PyFloat where
  | finite (q : ℚ)
  | inf
  | negInf
  | nan
deriving DecidableEq, Repr

/-- Python `==` on floats: finite values compare by value, `inf == inf`,
`-inf == -inf`, and `nan` is not equal to anything, itself included. -/
def pfEq : PyFloat → PyFloat → Bool
  | .finite a, .finite b => a == b
  | .inf, .inf => true
  | .negInf, .negInf => true
  | _, _ => false

/-- Scan a digit run, `acc`umulating its value and `n` counting digits.
When `allowU` is set, a single `_` preceded by a digit of this run
(`n != 0`) and followed by a digit is accepted (CPython's underscore
rule for numeric strings); the scan stops (without consuming) at any
other character, including a misplaced `_`, making the whole parse fail
on the leftover. -/
def digitsLoop (allowU : Bool) : List Char → ℕ → ℕ → ℕ × ℕ × List Char
  | [], acc, n => (acc, n, [])
  | c :: cs, acc, n =>
    if c.isDigit then digitsLoop allowU cs (acc * 10 + (c.toNat - 48)) (n + 1)
    else if allowU && c == '_' && n != 0 then
      match cs with
      | d :: cs' =>
        if d.isDigit then digitsLoop allowU cs' (acc * 10 + (d.toNat - 48)) (n + 1)
        else (acc, n, c :: cs)
      | [] => (acc, n, [c])
    else (acc, n, c :: cs)

/-- Parse an unsigned decimal floating-point literal
`digits [. digits] [e[sign]digits]` / `. digits [...]`, requiring the
whole input to be consumed; `none` on any malformed input. -/
def parseDecCore (allowU : Bool) (s : List Char) : Option ℚ :=
  let ip := digitsLoop allowU s 0 0
  let fr := match ip.2.2 with
    | '.' :: rest => digitsLoop allowU rest 0 0
    | _ => (0, 0, ip.2.2)
  if ip.2.1 = 0 ∧ fr.2.1 = 0 then none
  else
    let mant : ℚ := (ip.1 : ℚ) + (fr.1 : ℚ) / ((10 : ℚ) ^ fr.2.1)
    match fr.2.2 with
    | [] => some mant
    | 'e' :: rest =>
      match rest with
      | '+' :: r2 =>
        let ex := digitsLoop allowU r2 0 0
        if ex.2.1 = 0 ∨ ex.2.2 ≠ [] then none else some (mant * (10 : ℚ) ^ (ex.1 : ℤ))
      | '-' :: r2 =>
        let ex := digitsLoop allowU r2 0 0
        if ex.2.1 = 0 ∨ ex.2.2 ≠ [] then none else some (mant * (10 : ℚ) ^ (-(ex.1 : ℤ)))
      | r2 =>
        let ex := digitsLoop allowU r2 0 0
        if ex.2.1 = 0 ∨ ex.2.2 ≠ [] then none else some (mant * (10 : ℚ) ^ (ex.1 : ℤ))
    | 'E' :: rest =>
      match rest with
      | '+' :: r2 =>
        let ex := digitsLoop allowU r2 0 0
        if ex.2.1 = 0 ∨ ex.2.2 ≠ [] then none else some (mant * (10 : ℚ) ^ (ex.1 : ℤ))
      | '-' :: r2 =>
        let ex := digitsLoop allowU r2 0 0
        if ex.2.1 = 0 ∨ ex.2.2 ≠ [] then none else some (mant * (10 : ℚ) ^ (-(ex.1 : ℤ)))
      | r2 =>
        let ex := digitsLoop allowU r2 0 0
        if ex.2.1 = 0 ∨ ex.2.2 ≠ [] then none else some (mant * (10 : ℚ) ^ (ex.1 : ℤ))
    | _ => none

/-- Python's `\s` restricted to ASCII: space, tab, newline, carriage
return, vertical tab and form feed. -/
def isPySpace (c : Char) : Bool :=
  c == ' ' || c == '\t' || c == '\n' || c == '\r' || c == '\x0b' || c == '\x0c'

/-- Strip leading and trailing whitespace, as `float()` does. -/
def stripWs (s : List Char) : List Char :=
  ((s.dropWhile isPySpace).reverse.dropWhile isPySpace).reverse

/-- Negation of a Python float. -/
def pfNeg : PyFloat → PyFloat
  | .finite q => .finite (-q)
  | .inf => .negInf
  | .negInf => .inf
  | .nan => .nan

/-- Round a nonnegative rational to the nearest integer, ties to even. -/
def roundHalfEven (x : ℚ) : ℤ :=
  let n := ⌊x⌋
  if x - (n : ℚ) < 1 / 2 then n
  else if (1 : ℚ) / 2 < x - (n : ℚ) then n + 1
  else if n % 2 = 0 then n else n + 1

/-- The binary exponent of `v > 0` (largest `e` with `2 ^ e ≤ v`),
clamped below at the subnormal regime's fixed exponent `-1022`; only
meaningful for `v` below the double overflow threshold. -/
def findExp (v : ℚ) : ℤ :=
  max ((1023 : ℤ) -
      (((List.range 2046).takeWhile fun k => v < (2 : ℚ) ^ ((1023 : ℤ) - (k : ℤ))).length : ℤ))
    (-1022)

/-- Round a nonnegative rational to the nearest IEEE-754 binary64 value
(ties to even), as CPython's string-to-float conversion does: values at
or above the overflow midpoint `2^1024 - 2^970` become inf, values below
half the smallest subnormal become 0, and finite results are returned as
their exact rational value on the binary64 grid. -/
def roundDouble (v : ℚ) : PyFloat :=
  if v = 0 then .finite 0
  else if (2 : ℚ) ^ (1024 : ℤ) - (2 : ℚ) ^ (970 : ℤ) ≤ v then .inf
  else
    let e := findExp v
    let q := (2 : ℚ) ^ (e - 52)
    .finite ((roundHalfEven (v / q) : ℚ) * q)

/-- The body of Python `float(str)` after whitespace stripping: an
optional sign followed by `inf`/`infinity`/`nan` (case-insensitive) or a
decimal literal (with underscore digit separators when `allowU`). -/
def pyParseSigned (allowU : Bool) (s : List Char) : Option PyFloat :=
  let sgn : Bool × List Char :=
    match s with
    | '+' :: t => (false, t)
    | '-' :: t => (true, t)
    | t => (false, t)
  let low := sgn.2.map Char.toLower
  if low = "inf".data ∨ low = "infinity".data then
    some (if sgn.1 then .negInf else .inf)
  else if low = "nan".data then some .nan
  else
    match parseDecCore allowU sgn.2 with
    | some q => some (if sgn.1 then pfNeg (roundDouble q) else roundDouble q)
    | none => none

/-- Model of `normalize_number` (app.py 34-38): `float(num_str)`, with the
`except` clause returning `None` modelled as `none`. -/
def normalize_number (num_str : String) : Option PyFloat :=
  pyParseSigned true (stripWs num_str.data)

/-- Modelled from the spec's words for claim C8 only: a "standard
decimal floating-point literal" — an optional sign followed by a plain
decimal literal with optional fraction and exponent; no whitespace, no
`inf`/`nan` spellings, no underscore separators. -/
def specDecimalLit (s : String) : Option ℚ :=
  match s.data with
  | '+' :: t => parseDecCore false t
  | '-' :: t => (parseDecCore false t).map (fun q => -q)
  | t => parseDecCore false t

/-! ### Tokenizer: `re.findall(r'\b\w+[\.\w]*\b|[^\w\s]', s)` -/

/-- The class `\w` (ASCII semantics): letters, digits, underscore. -/
def isWordChar (c : Char) : Bool := c.isAlphanum || c == '_'

/-- A character matched by `[\.\w]`: a word character or a period. -/
def isRunChar (c : Char) : Bool := isWordChar c || c == '.'

/-- Drop the trailing periods of a run (the final `\b` of the first
regex alternative backtracks over them). -/
def trimDots (l : List Char) : List Char :=
  (l.reverse.dropWhile (fun c => c == '.')).reverse

/-- The `re.findall` scan, fuelled (each step consumes at least one
character, so `fuel = length` is always enough). At a word character the
first alternative matches the longest prefix of word characters and
periods that ends in a word character; any other non-space character
matches `[^\w\s]` by itself; whitespace matches neither alternative and
is skipped. -/
def tokenizeAux : ℕ → List Char → List String
  | 0, _ => []
  | _, [] => []
  | fuel + 1, c :: cs =>
    if isPySpace c then tokenizeAux fuel cs
    else if isWordChar c then
      let core := trimDots (List.takeWhile isRunChar (c :: cs))
      core.asString :: tokenizeAux fuel (List.drop core.length (c :: cs))
    else
      String.singleton c :: tokenizeAux fuel cs

/-- Model of `re.findall(r'\b\w+[\.\w]*\b|[^\w\s]', s)` (app.py 41-42). -/
def tokenize (l : List Char) : List String := tokenizeAux l.length l

/-- Modelled from the spec's words for claim C9: split into maximal runs
of word characters and periods; each maximal run contributes its
word-core (trimmed of trailing periods) as one token followed by those
trailing periods as single-character tokens; every other non-space
character is its own token; whitespace is only a separator. -/
def tokenizeSpecAux : ℕ → List Char → List String
  | 0, _ => []
  | _, [] => []
  | fuel + 1, c :: cs =>
    if isPySpace c then tokenizeSpecAux fuel cs
    else if isWordChar c then
      let run := List.takeWhile isRunChar (c :: cs)
      let rest := List.dropWhile isRunChar (c :: cs)
      let core := trimDots run
      let dots := List.drop core.length run
      core.asString :: (dots.map String.singleton ++ tokenizeSpecAux fuel rest)
    else
      String.singleton c :: tokenizeSpecAux fuel cs

/-- Claim-side tokenizer (see `tokenizeSpecAux`). -/
def tokenizeSpec (l : List Char) : List String := tokenizeSpecAux l.length l

/-- A token of the shape the spec calls "a maximal run of word
characters with internal periods": nonempty, made of word characters and
periods, beginning and ending with a word character. -/
def wordCore (l : List Char) : Bool :=
  !l.isEmpty && l.all isRunChar && isWordChar (l.headD ' ') && isWordChar (l.getLastD ' ')

/-! ### highlight_differences (app.py 40-76) -/

/-- The span markup `f'<span class="{cls}">{tok}</span>'`. -/
def renderTok (cls tok : String) : String :=
  "<span class=\"" ++ cls ++ "\">" ++ tok ++ "</span>"

/-- The six token classes of the differ. -/
inductive TokenClass where
  | Equal
  | CaseDiff
  | DecimalDiff
  | Diff
  | Missing
  | Extra
deriving DecidableEq, Repr

/-- Python `str.lower()` (ASCII semantics), character by character. -/
def strLower (s : String) : String := ⟨s.data.map Char.toLower⟩

/-- The classification chain of app.py 59-74 for a position where both
tokens are present: byte equality, then case-folded equality, then
numeric equality of the two normalized values, else a plain diff. -/
def classifyPair (doc_token html_token : String) : TokenClass :=
  if doc_token = html_token then .Equal
  else if strLower doc_token = strLower html_token then .CaseDiff
  else
    match normalize_number doc_token, normalize_number html_token with
    | some x, some y => if pfEq x y then .DecimalDiff else .Diff
    | _, _ => .Diff

/-- The left-side rendering of a token of a given class (app.py's
appends to `highlighted_doc`). -/
def leftMark (tok : String) : TokenClass → String
  | .Equal => tok
  | .CaseDiff => renderTok "case-diff" tok
  | .DecimalDiff => renderTok "decimal-diff" tok
  | .Diff => renderTok "diff" tok
  | .Missing => renderTok "missing" tok
  | .Extra => tok

/-- The right-side rendering of a token of a given class (app.py's
appends to `highlighted_html`). -/
def rightMark (tok : String) : TokenClass → String
  | .Equal => tok
  | .CaseDiff => renderTok "case-diff" tok
  | .DecimalDiff => renderTok "decimal-diff" tok
  | .Diff => renderTok "diff" tok
  | .Missing => tok
  | .Extra => renderTok "extra" tok

/-- The loop of app.py 47-74 over positions `0 .. max(len,len)-1`: when
one side is exhausted the other side is rendered extra/missing on its
own; otherwise both tokens are rendered with their common class. -/
def highlightLists : List String → List String → List String × List String
  | [], htmlToks => ([], htmlToks.map (fun b => renderTok "extra" b))
  | docToks, [] => (docToks.map (fun a => renderTok "missing" a), [])
  | a :: docToks, b :: htmlToks =>
    let c := classifyPair a b
    let r := highlightLists docToks htmlToks
    (leftMark a c :: r.1, rightMark b c :: r.2)

/-- Model of `highlight_differences` (app.py 40-76): tokenize both sentences,
classify position by position, and space-join the rendered tokens. -/
def highlight_differences (doc_sent html_sent : String) : String × String :=
  let r := highlightLists (tokenize doc_sent.data) (tokenize html_sent.data)
  (" ".intercalate r.1, " ".intercalate r.2)

/-- Modelled from the claim's words (C1): the class of position `i` of
the positional diff of token sequences `A` (left) and `B` (right). -/
def claimClass (A B : List String) (i : ℕ) : TokenClass :=
  if A.length ≤ i then .Extra
  else if B.length ≤ i then .Missing
  else
    let a := A.getD i ""
    let b := B.getD i ""
    if a = b then .Equal
    else if strLower a = strLower b then .CaseDiff
    else
      match normalize_number a, normalize_number b with
      | some x, some y => if pfEq x y then .DecimalDiff else .Diff
      | _, _ => .Diff

/-- Claim-side left output (C1): positions `0 .. max-1` in order, the
Extra positions contributing nothing on the left. -/
def claimSideLeft (A B : List String) : List String :=
  (List.range (max A.length B.length)).filterMap fun i =>
    if claimClass A B i = .Extra then none
    else some (leftMark (A.getD i "") (claimClass A B i))

/-- Claim-side right output (C1): positions `0 .. max-1` in order, the
Missing positions contributing nothing on the right. -/
def claimSideRight (A B : List String) : List String :=
  (List.range (max A.length B.length)).filterMap fun i =>
    if claimClass A B i = .Missing then none
    else some (rightMark (B.getD i "") (claimClass A B i))

/-! ### match_sentences_full (app.py 78-105) -/

/-- The markup `<span class="missing">{s}</span>` — the whole-sentence missing row
content (app.py 99). -/
def spanMissing (s : String) : String := renderTok "missing" s

/-- The markup `<span class="extra">{s}</span>` — the whole-sentence extra row
content (app.py 103). -/
def spanExtra (s : String) : String := renderTok "extra" s

/-- Python `enumerate` starting at `k`. -/
def enumI : ℕ → List String → List (ℕ × String)
  | _, [] => []
  | k, h :: t => (k, h) :: enumI (k + 1) t

/-- The inner loop of app.py 83-91: scan the enumerated right sentences
in order, skip consumed indices, and update `(best_score, best_index)`
on strict improvement (`score > best_score`). -/
def bestLoop (d : String) (used : List ℕ) : List (ℕ × String) → ℚ → ℤ → ℚ × ℤ
  | [], bs, bi => (bs, bi)
  | (i, h) :: rest, bs, bi =>
    if i ∈ used then bestLoop d used rest bs bi
    else
      if bs < ratio d h then bestLoop d used rest (ratio d h) (i : ℤ)
      else bestLoop d used rest bs bi

/-- Best candidate for one left sentence: the inner loop started from
`best_score = 0`, `best_index = -1`. -/
def bestCandidate (d : String) (htmls : List String) (used : List ℕ) : ℚ × ℤ :=
  bestLoop d used (enumI 0 htmls) 0 (-1)

/-- The main loop of app.py 82-99 over the left sentences, threading the
set of consumed right indices: accept the best candidate when
`best_score >= threshold and best_index != -1`, else emit a missing row. -/
def processLeft (htmls : List String) (t : ℚ) :
    List String → List ℕ → List (String × String × Bool) × List ℕ
  | [], used => ([], used)
  | d :: ds, used =>
    let bc := bestCandidate d htmls used
    if t ≤ bc.1 ∧ bc.2 ≠ -1 then
      let idx := bc.2.toNat
      let pr := highlight_differences d (htmls.getD idx "")
      let r := processLeft htmls t ds (idx :: used)
      ((pr.1, pr.2, false) :: r.1, r.2)
    else
      let r := processLeft htmls t ds used
      ((spanMissing d, "", true) :: r.1, r.2)

/-- The trailing loop of app.py 101-103: every right sentence whose
index was never consumed becomes an extra row, in right order. -/
def extraRows (htmls : List String) (used : List ℕ) : List (String × String × Bool) :=
  (enumI 0 htmls).filterMap fun p =>
    if p.1 ∈ used then none else some ("", spanExtra p.2, false)

/-- Model of `match_sentences_full` (app.py 78-105). -/
def match_sentences_full (doc_sentences html_sentences : List String) (threshold : ℚ) :
    List (String × String × Bool) :=
  let r := processLeft html_sentences threshold doc_sentences []
  r.1 ++ extraRows html_sentences r.2

/-- The default `threshold=0.3` of app.py 78. -/
def defaultThreshold : ℚ := 3 / 10

/-- The consumed right indices at the end of the main loop. -/
def finalUsed (doc_sentences html_sentences : List String) (threshold : ℚ) : List ℕ :=
  (processLeft html_sentences threshold doc_sentences []).2

/-- The number of right indices never consumed. -/
def unconsumedCount (n : ℕ) (used : List ℕ) : ℕ :=
  ((List.range n).filter fun i => decide (i ∉ used)).length

/-- One row of the report is derived from left sentence `s`: either its
missing row, or a matched pair with some right sentence. -/
def rowFromLeft (htmls : List String) (row : String × String × Bool) (s : String) : Prop :=
  row = (spanMissing s, "", true) ∨
    ∃ h ∈ htmls,
      row = ((highlight_differences s h).1, (highlight_differences s h).2, false)

/-! ## Supporting lemmas -/

/-- Python `enumerate` membership, forward direction. -/
lemma mem_enumI : ∀ (xs : List String) (k j : ℕ), j < xs.length →
    (k + j, xs.getD j "") ∈ enumI k xs := by
  intro xs
  induction xs with
  | nil => intro k j hj; simp at hj
  | cons x xs ih =>
    intro k j hj
    cases j with
    | zero => simp [enumI]
    | succ j =>
      rw [enumI]
      refine List.mem_cons_of_mem _ ?_
      have := ih (k + 1) j (by simpa using hj)
      simpa [Nat.add_assoc, Nat.add_comm 1 j] using this

/-- Python `enumerate` membership, backward direction. -/
lemma enumI_mem : ∀ (xs : List String) (k : ℕ) (p : ℕ × String), p ∈ enumI k xs →
    ∃ j, j < xs.length ∧ p = (k + j, xs.getD j "") := by
  intro xs
  induction xs with
  | nil => intro k p hp; simp [enumI] at hp
  | cons x xs ih =>
    intro k p hp
    rw [enumI] at hp
    rcases List.mem_cons.1 hp with rfl | hp'
    · exact ⟨0, by simp, by simp⟩
    · obtain ⟨j, hj, rfl⟩ := ih (k + 1) p hp'
      exact ⟨j + 1, by simpa using hj, by simp [Nat.add_assoc, Nat.add_comm 1 j]⟩

/-- Splitting `enumerate` at an element recovers its index and the
elements before it. -/
lemma enumI_split : ∀ (xs : List String) (k : ℕ) (l₁ : List (ℕ × String)) (p : ℕ × String)
    (l₂ : List (ℕ × String)), enumI k xs = l₁ ++ p :: l₂ →
    p.1 = k + l₁.length ∧ ∀ j, j < l₁.length → (k + j, xs.getD j "") ∈ l₁ := by
  intro xs
  induction xs with
  | nil =>
    intro k l₁ p l₂ h
    exfalso
    have := congrArg List.length h
    simp [enumI] at this
    omega
  | cons x xs ih =>
    intro k l₁ p l₂ h
    rw [enumI] at h
    cases l₁ with
    | nil =>
      simp only [List.nil_append, List.cons.injEq] at h
      obtain ⟨rfl, -⟩ := h
      exact ⟨by simp, by intro j hj; simp at hj⟩
    | cons q l₁' =>
      simp only [List.cons_append, List.cons.injEq] at h
      obtain ⟨rfl, h2⟩ := h
      obtain ⟨hp1, hmem⟩ := ih (k + 1) l₁' p l₂ h2
      constructor
      · simpa [Nat.add_assoc, Nat.add_comm 1 l₁'.length] using hp1
      · intro j hj
        cases j with
        | zero => simp
        | succ j =>
          refine List.mem_cons_of_mem _ ?_
          have := hmem j (by simpa using hj)
          simpa [Nat.add_assoc, Nat.add_comm 1 j] using this

/-- Master invariant of the inner loop (app.py 83-91): the final score
dominates the start score and every unconsumed candidate's score; and
either nothing was recorded, or the recorded index is an unconsumed
candidate whose score is the final score, strictly above the start score
and strictly above every unconsumed candidate scanned before it. -/
lemma bestLoop_spec (d : String) (used : List ℕ) :
    ∀ (l : List (ℕ × String)) (bs : ℚ) (bi : ℤ),
      bs ≤ (bestLoop d used l bs bi).1 ∧
      (∀ p ∈ l, p.1 ∉ used → ratio d p.2 ≤ (bestLoop d used l bs bi).1) ∧
      (bestLoop d used l bs bi = (bs, bi) ∨
        ∃ l₁ p l₂, l = l₁ ++ p :: l₂ ∧ p.1 ∉ used ∧
          (bestLoop d used l bs bi).2 = (p.1 : ℤ) ∧
          (bestLoop d used l bs bi).1 = ratio d p.2 ∧
          bs < (bestLoop d used l bs bi).1 ∧
          ∀ q ∈ l₁, q.1 ∉ used → ratio d q.2 < (bestLoop d used l bs bi).1) := by
  intro l
  induction l with
  | nil => intro bs bi; exact ⟨le_refl _, by simp, Or.inl rfl⟩
  | cons p rest ih =>
    intro bs bi
    obtain ⟨i, h⟩ := p
    by_cases hu : i ∈ used
    · have hrw : bestLoop d used ((i, h) :: rest) bs bi = bestLoop d used rest bs bi := by
        simp [bestLoop, hu]
      obtain ⟨ih1, ih2, ih3⟩ := ih bs bi
      rw [hrw]
      refine ⟨ih1, ?_, ?_⟩
      · rintro q hq hqu
        rcases List.mem_cons.1 hq with rfl | hq'
        · exact absurd hu hqu
        · exact ih2 q hq' hqu
      · rcases ih3 with heq | ⟨l₁, p, l₂, hspl, hpu, hbi, hbs, hlt, hbefore⟩
        · exact Or.inl heq
        · refine Or.inr ⟨(i, h) :: l₁, p, l₂, by rw [hspl]; rfl, hpu, hbi, hbs, hlt, ?_⟩
          rintro q hq hqu
          rcases List.mem_cons.1 hq with rfl | hq'
          · exact absurd hu hqu
          · exact hbefore q hq' hqu
    · by_cases hlt : bs < ratio d h
      · have hrw : bestLoop d used ((i, h) :: rest) bs bi =
            bestLoop d used rest (ratio d h) (i : ℤ) := by
          simp [bestLoop, hu, hlt]
        obtain ⟨ih1, ih2, ih3⟩ := ih (ratio d h) (i : ℤ)
        rw [hrw]
        refine ⟨le_trans (le_of_lt hlt) ih1, ?_, ?_⟩
        · rintro q hq hqu
          rcases List.mem_cons.1 hq with rfl | hq'
          · exact ih1
          · exact ih2 q hq' hqu
        · rcases ih3 with heq | ⟨l₁, p, l₂, hspl, hpu, hbi, hbs, hlt2, hbefore⟩
          · refine Or.inr ⟨[], (i, h), rest, rfl, hu, ?_, ?_, ?_, by simp⟩
            · rw [heq]
            · rw [heq]
            · rw [heq]; exact hlt
          · refine Or.inr ⟨(i, h) :: l₁, p, l₂, by rw [hspl]; rfl, hpu, hbi, hbs,
              lt_trans hlt hlt2, ?_⟩
            rintro q hq hqu
            rcases List.mem_cons.1 hq with rfl | hq'
            · exact hlt2
            · exact hbefore q hq' hqu
      · have hrw : bestLoop d used ((i, h) :: rest) bs bi = bestLoop d used rest bs bi := by
          simp [bestLoop, hu, hlt]
        obtain ⟨ih1, ih2, ih3⟩ := ih bs bi
        rw [hrw]
        refine ⟨ih1, ?_, ?_⟩
        · rintro q hq hqu
          rcases List.mem_cons.1 hq with rfl | hq'
          · exact le_trans (le_of_not_lt hlt) ih1
          · exact ih2 q hq' hqu
        · rcases ih3 with heq | ⟨l₁, p, l₂, hspl, hpu, hbi, hbs, hlt2, hbefore⟩
          · exact Or.inl heq
          · refine Or.inr ⟨(i, h) :: l₁, p, l₂, by rw [hspl]; rfl, hpu, hbi, hbs, hlt2, ?_⟩
            rintro q hq hqu
            rcases List.mem_cons.1 hq with rfl | hq'
            · exact lt_of_le_of_lt (le_of_not_lt hlt) hlt2
            · exact hbefore q hq' hqu

/-- The final best score dominates every unconsumed candidate's score. -/
lemma bestCandidate_max (d : String) (htmls : List String) (used : List ℕ) :
    ∀ j, j < htmls.length → j ∉ used →
      ratio d (htmls.getD j "") ≤ (bestCandidate d htmls used).1 := by
  intro j hj hju
  have h := (bestLoop_spec d used (enumI 0 htmls) 0 (-1)).2.1
  have hm := mem_enumI htmls 0 j hj
  have := h _ hm (by simpa using hju)
  simpa using this

/-- If no index was recorded, the best score is still the initial `0`. -/
lemma bestCandidate_none (d : String) (htmls : List String) (used : List ℕ)
    (h : (bestCandidate d htmls used).2 = -1) : (bestCandidate d htmls used).1 = 0 := by
  rcases (bestLoop_spec d used (enumI 0 htmls) 0 (-1)).2.2 with heq |
    ⟨l₁, p, l₂, _, _, hbi, _, _, _⟩
  · show (bestLoop d used (enumI 0 htmls) 0 (-1)).1 = 0
    rw [heq]
  · exfalso
    have h' : (bestLoop d used (enumI 0 htmls) 0 (-1)).2 = -1 := h
    rw [h'] at hbi
    omega

/-- If an index was recorded, it is an unconsumed in-range index whose
score is the final (strictly positive) best score, and every unconsumed
index below it scores strictly less. -/
lemma bestCandidate_accept (d : String) (htmls : List String) (used : List ℕ)
    (hne : (bestCandidate d htmls used).2 ≠ -1) :
    ∃ jn : ℕ, (bestCandidate d htmls used).2 = (jn : ℤ) ∧ jn < htmls.length ∧ jn ∉ used ∧
      ratio d (htmls.getD jn "") = (bestCandidate d htmls used).1 ∧
      0 < (bestCandidate d htmls used).1 ∧
      ∀ j, j < jn → j ∉ used → ratio d (htmls.getD j "") < (bestCandidate d htmls used).1 := by
  rcases (bestLoop_spec d used (enumI 0 htmls) 0 (-1)).2.2 with heq |
    ⟨l₁, p, l₂, hspl, hpu, hbi, hbs, hlt, hbefore⟩
  · exfalso
    apply hne
    show (bestLoop d used (enumI 0 htmls) 0 (-1)).2 = -1
    rw [heq]
  · obtain ⟨hp1, hmem₁⟩ := enumI_split htmls 0 l₁ p l₂ hspl
    have hpmem : p ∈ enumI 0 htmls := by
      rw [hspl]; exact List.mem_append_right _ (List.mem_cons_self _ _)
    obtain ⟨j, hj, hpe⟩ := enumI_mem htmls 0 p hpmem
    have hj1 : p.1 = j := by rw [hpe]; simp
    have hj2 : p.2 = htmls.getD j "" := by rw [hpe]
    refine ⟨p.1, hbi, ?_, hpu, ?_, hlt, ?_⟩
    · rw [hj1]; exact hj
    · rw [hj1, ← hj2]; exact hbs.symm
    · intro j' hj' hj'u
      have hj'lt : j' < l₁.length := by omega
      have hq := hmem₁ j' hj'lt
      have := hbefore (0 + j', htmls.getD j' "") hq (by simpa using hj'u)
      simpa using this

/-- Unfolding of the main loop when the candidate is accepted
(`best_score >= threshold and best_index != -1`). -/
lemma processLeft_cons_pos (htmls : List String) (t : ℚ) (d : String) (ds : List String)
    (used : List ℕ)
    (h : t ≤ (bestCandidate d htmls used).1 ∧ (bestCandidate d htmls used).2 ≠ -1) :
    processLeft htmls t (d :: ds) used =
      (((highlight_differences d (htmls.getD (bestCandidate d htmls used).2.toNat "")).1,
        (highlight_differences d (htmls.getD (bestCandidate d htmls used).2.toNat "")).2,
        false) ::
          (processLeft htmls t ds ((bestCandidate d htmls used).2.toNat :: used)).1,
        (processLeft htmls t ds ((bestCandidate d htmls used).2.toNat :: used)).2) := by
  simp only [processLeft]
  rw [if_pos h]

/-- Unfolding of the main loop when the candidate is rejected: the left
sentence becomes a missing row and no index is consumed. -/
lemma processLeft_cons_neg (htmls : List String) (t : ℚ) (d : String) (ds : List String)
    (used : List ℕ)
    (h : ¬(t ≤ (bestCandidate d htmls used).1 ∧ (bestCandidate d htmls used).2 ≠ -1)) :
    processLeft htmls t (d :: ds) used =
      ((spanMissing d, "", true) :: (processLeft htmls t ds used).1,
        (processLeft htmls t ds used).2) := by
  simp only [processLeft]
  rw [if_neg h]

/-- The main loop emits exactly one row per left sentence. -/
lemma processLeft_fst_length (htmls : List String) (t : ℚ) :
    ∀ (docs : List String) (used : List ℕ),
      ((processLeft htmls t docs used).1).length = docs.length := by
  intro docs
  induction docs with
  | nil => intro used; rfl
  | cons d ds ih =>
    intro used
    by_cases hc : t ≤ (bestCandidate d htmls used).1 ∧ (bestCandidate d htmls used).2 ≠ -1
    · rw [processLeft_cons_pos htmls t d ds used hc]
      simp [ih]
    · rw [processLeft_cons_neg htmls t d ds used hc]
      simp [ih]

/-- The consumed set only grows: the final set is the initial one plus
the newly consumed indices. -/
lemma processLeft_snd_suffix (htmls : List String) (t : ℚ) :
    ∀ (docs : List String) (used : List ℕ),
      ∃ X, (processLeft htmls t docs used).2 = X ++ used := by
  intro docs
  induction docs with
  | nil => intro used; exact ⟨[], rfl⟩
  | cons d ds ih =>
    intro used
    by_cases hc : t ≤ (bestCandidate d htmls used).1 ∧ (bestCandidate d htmls used).2 ≠ -1
    · rw [processLeft_cons_pos htmls t d ds used hc]
      obtain ⟨X, hX⟩ := ih ((bestCandidate d htmls used).2.toNat :: used)
      exact ⟨X ++ [(bestCandidate d htmls used).2.toNat], by simp [hX]⟩
    · rw [processLeft_cons_neg htmls t d ds used hc]
      exact ih used

/-- Invariants of the consumed set threaded through the main loop: it
stays duplicate-free and in range, and it grows by exactly one index per
matched row. -/
lemma processLeft_used_spec (htmls : List String) (t : ℚ) :
    ∀ (docs : List String) (used : List ℕ), used.Nodup → (∀ i ∈ used, i < htmls.length) →
      (processLeft htmls t docs used).2.Nodup ∧
        (∀ i ∈ (processLeft htmls t docs used).2, i < htmls.length) ∧
        (processLeft htmls t docs used).2.length =
          used.length + (processLeft htmls t docs used).1.countP (fun row => !row.2.2) := by
  intro docs
  induction docs with
  | nil => intro used h1 h2; exact ⟨h1, h2, by simp [processLeft]⟩
  | cons d ds ih =>
    intro used h1 h2
    by_cases hc : t ≤ (bestCandidate d htmls used).1 ∧ (bestCandidate d htmls used).2 ≠ -1
    · obtain ⟨jn, hjn, hlt, hnotin, -, -, -⟩ := bestCandidate_accept d htmls used hc.2
      have hidx : (bestCandidate d htmls used).2.toNat = jn := by rw [hjn]; simp
      rw [processLeft_cons_pos htmls t d ds used hc, hidx]
      have h1' : (jn :: used).Nodup := List.nodup_cons.2 ⟨hnotin, h1⟩
      have h2' : ∀ i ∈ jn :: used, i < htmls.length := by
        intro i hi
        rcases List.mem_cons.1 hi with rfl | hi'
        · exact hlt
        · exact h2 i hi'
      obtain ⟨ih1, ih2, ih3⟩ := ih (jn :: used) h1' h2'
      refine ⟨ih1, ih2, ?_⟩
      rw [ih3]
      simp [List.countP_cons]
      omega
    · rw [processLeft_cons_neg htmls t d ds used hc]
      obtain ⟨ih1, ih2, ih3⟩ := ih used h1 h2
      refine ⟨ih1, ih2, ?_⟩
      rw [ih3]
      simp [List.countP_cons]

/-- The extra-row loop in terms of index filtering, generalized over the
enumeration start. -/
lemma extraRows_aux_length (u : List ℕ) :
    ∀ (xs : List String) (k : ℕ),
      ((enumI k xs).filterMap fun p =>
        if p.1 ∈ u then none
        else some (("", spanExtra p.2, false) : String × String × Bool)).length =
      ((List.range' k xs.length).filter fun i => decide (i ∉ u)).length := by
  intro xs
  induction xs with
  | nil => intro k; simp [enumI]
  | cons x xs ih =>
    intro k
    rw [enumI]
    show (List.filterMap _ ((k, x) :: enumI (k + 1) xs)).length = _
    rw [List.filterMap_cons, List.length_cons, List.range'_succ]
    by_cases hk : k ∈ u
    · simp only [if_pos hk]
      rw [List.filter_cons]
      simp [hk, ih]
    · simp only [if_neg hk]
      rw [List.filter_cons]
      simp [hk, ih]

/-- The number of extra rows is the number of never-consumed indices. -/
lemma extraRows_length (htmls : List String) (u : List ℕ) :
    (extraRows htmls u).length = unconsumedCount htmls.length u := by
  have := extraRows_aux_length u htmls 0
  rw [extraRows, unconsumedCount, List.range_eq_range']
  exact this

/-- The extra rows are a sublist of the full right-order extra row list:
they keep the right sequence's original order. -/
lemma extraRows_aux_sublist (u : List ℕ) :
    ∀ (xs : List String) (k : ℕ),
      ((enumI k xs).filterMap fun p =>
        if p.1 ∈ u then none
        else some (("", spanExtra p.2, false) : String × String × Bool)).Sublist
        (xs.map fun h => ("", spanExtra h, false)) := by
  intro xs
  induction xs with
  | nil => intro k; simp [enumI]
  | cons x xs ih =>
    intro k
    rw [enumI]
    show (List.filterMap _ ((k, x) :: enumI (k + 1) xs)).Sublist _
    rw [List.filterMap_cons, List.map_cons]
    by_cases hk : k ∈ u
    · simp only [if_pos hk]
      exact (ih (k + 1)).cons _
    · simp only [if_neg hk]
      exact (ih (k + 1)).cons₂ _

/-- When everything is unconsumed and the used set is duplicate-free and
in range, consumed plus unconsumed indices add up to the number of right
sentences. -/
lemma unconsumedCount_add (n : ℕ) :
    ∀ (u : List ℕ), u.Nodup → (∀ i ∈ u, i < n) → unconsumedCount n u + u.length = n := by
  intro u
  induction u with
  | nil =>
    intro _ _
    simp [unconsumedCount, List.filter_eq_self]
  | cons a u ih =>
    intro hnd hbd
    have ha : a ∉ u := (List.nodup_cons.1 hnd).1
    have hu : u.Nodup := (List.nodup_cons.1 hnd).2
    have han : a < n := hbd a (List.mem_cons_self a u)
    have hbd' : ∀ i ∈ u, i < n := fun i hi => hbd i (List.mem_cons_of_mem a hi)
    have key : unconsumedCount n (a :: u) + 1 = unconsumedCount n u := by
      unfold unconsumedCount
      have hsplit : ((List.range n).filter fun i => decide (i ∉ a :: u)) =
          (((List.range n).filter fun i => decide (i ∉ u)).filter fun i => decide (i ≠ a)) := by
        rw [List.filter_filter]
        apply List.filter_congr
        intro x _
        by_cases h1 : x ∈ u <;> by_cases h2 : x = a <;> simp [h1, h2]
      rw [hsplit]
      have haL : a ∈ (List.range n).filter fun i => decide (i ∉ u) :=
        List.mem_filter.2 ⟨List.mem_range.2 han, by simpa using ha⟩
      have hLd : ((List.range n).filter fun i => decide (i ∉ u)).Nodup :=
        (List.nodup_range n).filter _
      have herase : (((List.range n).filter fun i => decide (i ∉ u)).filter
          fun i => decide (i ≠ a)) = ((List.range n).filter fun i => decide (i ∉ u)).erase a := by
        rw [hLd.erase_eq_filter]
        apply List.filter_congr
        intro x _
        by_cases h2 : x = a <;> simp [h2]
      rw [herase, List.length_erase_of_mem haL]
      have hpos : 0 < ((List.range n).filter fun i => decide (i ∉ u)).length :=
        List.length_pos.2 (List.ne_nil_of_mem haL)
      omega
    have := ih hu hbd'
    simp only [List.length_cons]
    omega

/-- A `getD` at an in-range index is a member of the list. -/
lemma getD_mem_of_lt {l : List String} {n : ℕ} (h : n < l.length) (d : String) :
    l.getD n d ∈ l := by
  rw [List.getD_eq_getElem l d h]
  exact List.getElem_mem h

/-- With an empty right sequence the best candidate is the initial
`(0, -1)` and the main loop emits one missing row per left sentence,
whatever the threshold. -/
lemma processLeft_nil_right (t : ℚ) :
    ∀ (docs : List String) (used : List ℕ),
      processLeft [] t docs used = (docs.map fun s => (spanMissing s, "", true), used) := by
  intro docs
  induction docs with
  | nil => intro used; rfl
  | cons d ds ih =>
    intro used
    refine (processLeft_cons_neg [] t d ds used ?_).trans ?_
    · have hbc : bestCandidate d [] used = (0, -1) := rfl
      rw [hbc]
      simp
    · simp [ih]

/-- With an empty used set every right sentence becomes an extra row. -/
lemma extraRows_aux_nil_used :
    ∀ (xs : List String) (k : ℕ),
      ((enumI k xs).filterMap fun p =>
        if p.1 ∈ ([] : List ℕ) then none
        else some (("", spanExtra p.2, false) : String × String × Bool)) =
      xs.map fun h => ("", spanExtra h, false) := by
  intro xs
  induction xs with
  | nil => intro k; rfl
  | cons x xs ih =>
    intro k
    rw [enumI]
    show ("", spanExtra x, false) :: ((enumI (k + 1) xs).filterMap fun p =>
        if p.1 ∈ ([] : List ℕ) then none
        else some (("", spanExtra p.2, false) : String × String × Bool)) = _
    rw [List.map_cons, ih (k + 1)]

/-! ## Concrete score evaluations

`Rat` arithmetic does not reduce definitionally (its normalization uses
well-founded recursion), so concrete `ratio` values are computed by
reducing the natural-number match count with `decide` and finishing the
rational arithmetic with `norm_num`. -/

/-- Unfolding of `ratio` on a nonempty pair. -/
lemma ratio_eval (sa sb : String) (h : ¬(sa.data.length + sb.data.length = 0)) :
    ratio sa sb = 2 * (matchesFrom sa.data sb.data (sa.data.length + sb.data.length + 1) 0
      sa.data.length 0 sb.data.length : ℚ) / ((sa.data.length + sb.data.length : ℕ) : ℚ) := by
  simp only [ratio]
  rw [if_neg h]

lemma ratio_a_a : ratio "a" "a" = 1 := by
  rw [ratio_eval "a" "a" (by decide),
    show matchesFrom "a".data "a".data ("a".data.length + "a".data.length + 1) 0
      "a".data.length 0 "a".data.length = 1 from by decide]
  show 2 * ((1 : ℕ) : ℚ) / ((2 : ℕ) : ℚ) = 1
  norm_num

lemma ratio_a_b : ratio "a" "b" = 0 := by
  rw [ratio_eval "a" "b" (by decide),
    show matchesFrom "a".data "b".data ("a".data.length + "b".data.length + 1) 0
      "a".data.length 0 "b".data.length = 0 from by decide]
  show 2 * ((0 : ℕ) : ℚ) / ((2 : ℕ) : ℚ) = 0
  norm_num

lemma ratio_ab_ax : ratio "ab" "ax" = 1 / 2 := by
  rw [ratio_eval "ab" "ax" (by decide),
    show matchesFrom "ab".data "ax".data ("ab".data.length + "ax".data.length + 1) 0
      "ab".data.length 0 "ax".data.length = 1 from by decide]
  show 2 * ((1 : ℕ) : ℚ) / ((4 : ℕ) : ℚ) = 1 / 2
  norm_num

lemma ratio_ab_xy : ratio "ab" "xy" = 0 := by
  rw [ratio_eval "ab" "xy" (by decide),
    show matchesFrom "ab".data "xy".data ("ab".data.length + "xy".data.length + 1) 0
      "ab".data.length 0 "xy".data.length = 0 from by decide]
  show 2 * ((0 : ℕ) : ℚ) / ((4 : ℕ) : ℚ) = 0
  norm_num

lemma ratio_ab_ab : ratio "ab" "ab" = 1 := by
  rw [ratio_eval "ab" "ab" (by decide),
    show matchesFrom "ab".data "ab".data ("ab".data.length + "ab".data.length + 1) 0
      "ab".data.length 0 "ab".data.length = 2 from by decide]
  show 2 * ((2 : ℕ) : ℚ) / ((4 : ℕ) : ℚ) = 1
  norm_num

/-- Inner-loop unfolding: consumed index skipped. -/
lemma bestLoop_cons_skip (d : String) (used : List ℕ) (i : ℕ) (h : String)
    (rest : List (ℕ × String)) (bs : ℚ) (bi : ℤ) (hm : i ∈ used) :
    bestLoop d used ((i, h) :: rest) bs bi = bestLoop d used rest bs bi := by
  simp [bestLoop, hm]

/-- Inner-loop unfolding: strictly better score recorded. -/
lemma bestLoop_cons_update (d : String) (used : List ℕ) (i : ℕ) (h : String)
    (rest : List (ℕ × String)) (bs : ℚ) (bi : ℤ) (hm : i ∉ used) (hlt : bs < ratio d h) :
    bestLoop d used ((i, h) :: rest) bs bi = bestLoop d used rest (ratio d h) (i : ℤ) := by
  simp [bestLoop, hm, hlt]

/-- Inner-loop unfolding: no improvement, accumulator kept. -/
lemma bestLoop_cons_keep (d : String) (used : List ℕ) (i : ℕ) (h : String)
    (rest : List (ℕ × String)) (bs : ℚ) (bi : ℤ) (hm : i ∉ used) (hlt : ¬bs < ratio d h) :
    bestLoop d used ((i, h) :: rest) bs bi = bestLoop d used rest bs bi := by
  simp [bestLoop, hm, hlt]

lemma bc_ab_ax : bestCandidate "ab" ["ax"] [] = (1 / 2, 0) := by
  show bestLoop "ab" [] [(0, "ax")] 0 (-1) = (1 / 2, 0)
  rw [bestLoop_cons_update "ab" [] 0 "ax" [] 0 (-1) (by simp)
    (by rw [ratio_ab_ax]; norm_num)]
  rw [ratio_ab_ax]
  rfl

lemma bc_ab_xy_ab : bestCandidate "ab" ["xy", "ab"] [] = (1, 1) := by
  show bestLoop "ab" [] [(0, "xy"), (1, "ab")] 0 (-1) = (1, 1)
  rw [bestLoop_cons_keep "ab" [] 0 "xy" [(1, "ab")] 0 (-1) (by simp)
    (by rw [ratio_ab_xy]; norm_num)]
  rw [bestLoop_cons_update "ab" [] 1 "ab" [] 0 (-1) (by simp)
    (by rw [ratio_ab_ab]; norm_num)]
  rw [ratio_ab_ab]
  rfl

lemma bc_a_a : bestCandidate "a" ["a"] [] = (1, 0) := by
  show bestLoop "a" [] [(0, "a")] 0 (-1) = (1, 0)
  rw [bestLoop_cons_update "a" [] 0 "a" [] 0 (-1) (by simp)
    (by rw [ratio_a_a]; norm_num)]
  rw [ratio_a_a]
  rfl

/-! ## Claims -/

/-- C4: for each left sentence (in original order) the aligner scores
every not-yet-consumed right sentence and keeps the maximum, ties broken
by lowest right index: the final best dominates all unconsumed scores;
if no index was recorded the best is the initial 0; if one was recorded
it is an unconsumed in-range index attaining the best score, strictly
positive, with all lower unconsumed indices scoring strictly less (the
strict `>` update keeps the first maximum); and when accepted, that
index is consumed for the rest of the run. -/
theorem c4_best_candidate_argmax (d : String) (htmls ds : List String) (used : List ℕ)
    (bs : ℚ) (bi : ℤ) (h : bestCandidate d htmls used = (bs, bi)) :
    (∀ j, j < htmls.length → j ∉ used → ratio d (htmls.getD j "") ≤ bs) ∧
    (bi = -1 → bs = 0) ∧
    (bi ≠ -1 → ∃ jn : ℕ, bi = (jn : ℤ) ∧ jn < htmls.length ∧ jn ∉ used ∧
      ratio d (htmls.getD jn "") = bs ∧ 0 < bs ∧
      (∀ j, j < jn → j ∉ used → ratio d (htmls.getD j "") < bs) ∧
      ∀ t, t ≤ bs → jn ∈ (processLeft htmls t (d :: ds) used).2) := by
  have hbs : bs = (bestCandidate d htmls used).1 := by rw [h]
  have hbi : bi = (bestCandidate d htmls used).2 := by rw [h]
  subst hbs
  subst hbi
  refine ⟨bestCandidate_max d htmls used, bestCandidate_none d htmls used, ?_⟩
  intro hne
  obtain ⟨jn, h1, h2, h3, h4, h5, h6⟩ := bestCandidate_accept d htmls used hne
  refine ⟨jn, h1, h2, h3, h4, h5, h6, ?_⟩
  intro t ht
  have hc : t ≤ (bestCandidate d htmls used).1 ∧ (bestCandidate d htmls used).2 ≠ -1 :=
    ⟨ht, hne⟩
  rw [processLeft_cons_pos htmls t d ds used hc]
  have hidx : (bestCandidate d htmls used).2.toNat = jn := by rw [h1]; simp
  rw [hidx]
  obtain ⟨X, hX⟩ := processLeft_snd_suffix htmls t ds (jn :: used)
  show jn ∈ (processLeft htmls t ds (jn :: used)).2
  rw [hX]
  exact List.mem_append_right _ (List.mem_cons_self _ _)

/-- Witness for C4 at a concrete input: the unconsumed candidate at
index 0 scores at most the best score. -/
theorem c4_best_candidate_argmax_witness :
    ratio "ab" (["xy", "ab"].getD 0 "") ≤ 1 :=
  (c4_best_candidate_argmax "ab" ["xy", "ab"] [] [] 1 1 bc_ab_xy_ab).1 0 (by decide) (by decide)

/-- C5: a best score exactly equal to the threshold is accepted
(`best_score >= threshold` is inclusive): the left sentence is paired
with the recorded right sentence, not emitted as missing. -/
theorem c5_threshold_boundary_matches (d : String) (htmls ds : List String) (used : List ℕ)
    (t : ℚ) (bi : ℤ) (h : bestCandidate d htmls used = (t, bi)) (hne : bi ≠ -1) :
    processLeft htmls t (d :: ds) used =
      (((highlight_differences d (htmls.getD bi.toNat "")).1,
        (highlight_differences d (htmls.getD bi.toNat "")).2, false) ::
          (processLeft htmls t ds (bi.toNat :: used)).1,
        (processLeft htmls t ds (bi.toNat :: used)).2) := by
  have hc : t ≤ (bestCandidate d htmls used).1 ∧ (bestCandidate d htmls used).2 ≠ -1 := by
    rw [h]
    exact ⟨le_refl t, hne⟩
  rw [processLeft_cons_pos htmls t d ds used hc, h]

/-- Witness for C5: `ratio "ab" "ax" = 1/2` equals the threshold `1/2`
exactly and the pair is matched, not missing. -/
theorem c5_threshold_boundary_matches_witness :
    processLeft ["ax"] (1 / 2 : ℚ) ["ab"] [] =
      ([((highlight_differences "ab" "ax").1, (highlight_differences "ab" "ax").2, false)],
        [0]) := by
  have h := c5_threshold_boundary_matches "ab" ["ax"] [] [] (1 / 2) 0 bc_ab_ax (by decide)
  exact h

/-- C10: a left sentence all of whose unconsumed candidates score
exactly 0 is emitted as a missing row whatever the threshold (even 0 or
negative), because an index is only ever recorded on a strictly positive
score; with an empty right sequence the hypothesis holds vacuously, so
no match is ever attempted then either. -/
theorem c10_zero_scores_missing (htmls ds : List String) (used : List ℕ) (t : ℚ) (d : String)
    (h : ∀ j, j < htmls.length → j ∉ used → ratio d (htmls.getD j "") = 0) :
    processLeft htmls t (d :: ds) used =
      ((spanMissing d, "", true) :: (processLeft htmls t ds used).1,
        (processLeft htmls t ds used).2) := by
  have hbi : (bestCandidate d htmls used).2 = -1 := by
    by_contra hne
    obtain ⟨jn, h1, h2, h3, h4, h5, -⟩ := bestCandidate_accept d htmls used hne
    rw [h jn h2 h3] at h4
    rw [← h4] at h5
    exact lt_irrefl 0 h5
  apply processLeft_cons_neg
  intro hcontra
  exact hcontra.2 hbi

/-- Witness for C10 at a concrete input: `ratio "a" "b" = 0`, so even a
negative threshold yields a missing row. -/
theorem c10_zero_scores_missing_witness :
    processLeft ["b"] (-1 : ℚ) ["a"] [] = ([(spanMissing "a", "", true)], []) := by
  have h := c10_zero_scores_missing ["b"] [] [] (-1) "a" ?_
  · exact h
  · intro j hj hju
    have hj1 : j < 1 := by simpa using hj
    rcases Nat.lt_one_iff.1 hj1 with rfl
    simpa using ratio_a_b

/-- C7: at the default threshold, an empty left sequence yields an
all-extra result and an empty right sequence yields an all-missing
result (rows flagged `isUnmatchedLeft = true` with no right content). -/
theorem c7_empty_sides (docs htmls : List String) :
    match_sentences_full [] htmls defaultThreshold =
      (htmls.map fun h => ("", spanExtra h, false)) ∧
    match_sentences_full docs [] defaultThreshold =
      docs.map fun s => (spanMissing s, "", true) := by
  constructor
  · show (processLeft htmls defaultThreshold [] []).1 ++
      extraRows htmls (processLeft htmls defaultThreshold [] []).2 = _
    have h0 : processLeft htmls defaultThreshold [] [] = ([], []) := rfl
    rw [h0]
    show extraRows htmls [] = _
    rw [extraRows]
    exact extraRows_aux_nil_used htmls 0
  · show (processLeft [] defaultThreshold docs []).1 ++
      extraRows [] (processLeft [] defaultThreshold docs []).2 = _
    rw [processLeft_nil_right defaultThreshold docs []]
    show (docs.map fun s => (spanMissing s, "", true)) ++ extraRows [] [] = _
    simp [extraRows, enumI]

/-- C2: the report has one row per left sentence plus one per
never-consumed right index; the left-derived prefix contains exactly one
matched row per consumed index; and consumed plus unconsumed indices
account for every right sentence exactly once. -/
theorem c2_length_and_right_coverage (docs htmls : List String) (t : ℚ) :
    (match_sentences_full docs htmls t).length =
      docs.length + unconsumedCount htmls.length (finalUsed docs htmls t) ∧
    ((match_sentences_full docs htmls t).take docs.length).countP (fun row => !row.2.2) =
      (finalUsed docs htmls t).length ∧
    (finalUsed docs htmls t).length + unconsumedCount htmls.length (finalUsed docs htmls t) =
      htmls.length := by
  obtain ⟨hnd, hbd, hcnt⟩ := processLeft_used_spec htmls t docs [] (by simp) (by simp)
  have hlen := processLeft_fst_length htmls t docs []
  refine ⟨?_, ?_, ?_⟩
  · show ((processLeft htmls t docs []).1 ++
      extraRows htmls (processLeft htmls t docs []).2).length = _
    rw [List.length_append, hlen, extraRows_length]
    rfl
  · show (((processLeft htmls t docs []).1 ++
      extraRows htmls (processLeft htmls t docs []).2).take docs.length).countP _ = _
    rw [← hlen, List.take_left]
    show (processLeft htmls t docs []).1.countP (fun row => !row.2.2) =
      (processLeft htmls t docs []).2.length
    rw [hcnt]
    simp
  · have := unconsumedCount_add htmls.length (finalUsed docs htmls t) hnd hbd
    omega

/-- C3: the first `len(Left)` rows are the left sentences' rows in left
order (each either that sentence's missing row or a matched pair with
some right sentence), and the remaining rows are the unmatched right
rows in right order (a sublist of the full right-order extra list). -/
theorem c3_row_order (docs htmls : List String) (t : ℚ) :
    (∀ i, i < docs.length →
      rowFromLeft htmls ((match_sentences_full docs htmls t).getD i ("", "", true))
        (docs.getD i "")) ∧
    ((match_sentences_full docs htmls t).drop docs.length).Sublist
      (htmls.map fun h => ("", spanExtra h, false)) := by
  have hlen := processLeft_fst_length htmls t docs []
  have hrows : ∀ (ds : List String) (used : List ℕ) (i : ℕ), i < ds.length →
      rowFromLeft htmls ((processLeft htmls t ds used).1.getD i ("", "", true))
        (ds.getD i "") := by
    intro ds
    induction ds with
    | nil => intro used i hi; simp at hi
    | cons d ds ih =>
      intro used i hi
      by_cases hc : t ≤ (bestCandidate d htmls used).1 ∧ (bestCandidate d htmls used).2 ≠ -1
      · rw [processLeft_cons_pos htmls t d ds used hc]
        cases i with
        | zero =>
          obtain ⟨jn, h1, h2, -, -, -, -⟩ := bestCandidate_accept d htmls used hc.2
          have hidx : (bestCandidate d htmls used).2.toNat = jn := by rw [h1]; simp
          rw [hidx]
          right
          exact ⟨htmls.getD jn "", getD_mem_of_lt h2 "", by simp⟩
        | succ i =>
          rw [List.getD_cons_succ, List.getD_cons_succ]
          exact ih _ i (by simpa using hi)
      · rw [processLeft_cons_neg htmls t d ds used hc]
        cases i with
        | zero =>
          rw [List.getD_cons_zero, List.getD_cons_zero]
          left
          rfl
        | succ i =>
          rw [List.getD_cons_succ, List.getD_cons_succ]
          exact ih _ i (by simpa using hi)
  constructor
  · intro i hi
    show rowFromLeft htmls (((processLeft htmls t docs []).1 ++
      extraRows htmls (processLeft htmls t docs []).2).getD i ("", "", true)) _
    rw [List.getD_append _ _ _ i (by rw [hlen]; exact hi)]
    exact hrows docs [] i hi
  · show (((processLeft htmls t docs []).1 ++
      extraRows htmls (processLeft htmls t docs []).2).drop docs.length).Sublist _
    rw [← hlen, List.drop_left]
    exact extraRows_aux_sublist _ htmls 0

/-- Witness for C3 at a concrete input: the single left-derived row of
`Left = ["a"]`, `Right = []` is a row for `"a"`. -/
theorem c3_row_order_witness :
    rowFromLeft [] ((match_sentences_full ["a"] [] defaultThreshold).getD 0 ("", "", true)) "a" :=
  (c3_row_order ["a"] [] defaultThreshold).1 0 (by decide)

/-! ## Bounds on the similarity ratio -/

/-- Window bound on the best block recorded in a state. -/
def BestOk (alo blo bhi rbound : ℕ) (s : FlmState) : Prop :=
  s.bestsize = 0 ∨
    (alo ≤ s.besti ∧ s.besti + s.bestsize ≤ rbound ∧ blo ≤ s.bestj ∧
      s.bestj + s.bestsize ≤ bhi)

/-- Invariant of `find_longest_match`'s state after processing rows
`alo .. r - 1`: the best block lies inside the window and ends before
row `r`, and the `j2len` run lengths are bounded by the rows seen and
positioned inside `[blo, bhi)`. -/
def FlmInv (alo blo bhi : ℕ) (st : FlmState) (r : ℕ) : Prop :=
  BestOk alo blo bhi r st ∧
  ∀ j, st.j2len j ≤ r - alo ∧ (st.j2len j ≠ 0 → blo ≤ j ∧ j < bhi ∧ st.j2len j ≤ j + 1 - blo)

/-- The inner fold keeps the best block inside the window. -/
lemma flmStep_fold_best (a b : List Char) (alo blo bhi r : ℕ) (st : FlmState)
    (hkAt : ∀ j, blo ≤ j → j < bhi → flmK st j ≤ r + 1 - alo ∧ flmK st j ≤ j + 1 - blo)
    (s0 : FlmState) (h0 : BestOk alo blo bhi (r + 1) s0) :
    BestOk alo blo bhi (r + 1) ((List.range' blo (bhi - blo)).foldl (flmStep a b r st) s0) := by
  apply List.foldlRecOn _ _ _ h0
  intro s hs j hj
  have hjr : blo ≤ j ∧ j < blo + (bhi - blo) := List.mem_range'_1.1 hj
  have hjb : j < bhi := by omega
  unfold flmStep
  by_cases hch : chEq a b r j = true
  · rw [if_pos hch]
    by_cases hgt : flmK st j > s.bestsize
    · rw [if_pos hgt]
      have hk0 : 1 ≤ flmK st j := by unfold flmK; omega
      obtain ⟨hk1, hk2⟩ := hkAt j hjr.1 hjb
      unfold BestOk
      right
      show alo ≤ r + 1 - flmK st j ∧ r + 1 - flmK st j + flmK st j ≤ r + 1 ∧
        blo ≤ j + 1 - flmK st j ∧ j + 1 - flmK st j + flmK st j ≤ bhi
      refine ⟨by omega, by omega, by omega, by omega⟩
    · rw [if_neg hgt]
      exact hs
  · rw [if_neg hch]
    exact hs

/-- One outer-loop row preserves the invariant. -/
lemma flmRow_inv (a b : List Char) (alo blo bhi : ℕ) (st : FlmState) (r : ℕ)
    (halo : alo ≤ r) (hinv : FlmInv alo blo bhi st r) :
    FlmInv alo blo bhi (flmRow a b blo bhi st r) (r + 1) := by
  obtain ⟨hbest, hj2⟩ := hinv
  have hkAt : ∀ j, blo ≤ j → j < bhi → flmK st j ≤ r + 1 - alo ∧ flmK st j ≤ j + 1 - blo := by
    intro j hblo hbhi
    unfold flmK
    by_cases hj0 : j = 0
    · subst hj0
      rw [if_pos rfl]
      omega
    · rw [if_neg hj0]
      obtain ⟨h1, h2⟩ := hj2 (j - 1)
      by_cases hz : st.j2len (j - 1) = 0
      · rw [hz]
        omega
      · obtain ⟨h3, h4, h5⟩ := h2 hz
        omega
  have h0 : BestOk alo blo bhi (r + 1) st := by
    rcases hbest with h0 | ⟨h1, h2, h3, h4⟩
    · exact Or.inl h0
    · exact Or.inr ⟨h1, by omega, h3, h4⟩
  constructor
  · exact flmStep_fold_best a b alo blo bhi r st hkAt st h0
  · intro j
    constructor
    · show (if blo ≤ j ∧ j < bhi ∧ chEq a b r j then flmK st j else 0) ≤ r + 1 - alo
      by_cases hc : blo ≤ j ∧ j < bhi ∧ chEq a b r j = true
      · rw [if_pos hc]
        exact (hkAt j hc.1 hc.2.1).1
      · rw [if_neg hc]
        exact Nat.zero_le _
    · intro hne
      by_cases hc : blo ≤ j ∧ j < bhi ∧ chEq a b r j = true
      · refine ⟨hc.1, hc.2.1, ?_⟩
        show (if blo ≤ j ∧ j < bhi ∧ chEq a b r j then flmK st j else 0) ≤ j + 1 - blo
        rw [if_pos hc]
        exact (hkAt j hc.1 hc.2.1).2
      · exact absurd (if_neg hc) hne

/-- The longest matching block lies inside the search window. -/
lemma flm_bounds (a b : List Char) (alo ahi blo bhi : ℕ) :
    (find_longest_match a b alo ahi blo bhi).2.2 = 0 ∨
      (alo ≤ (find_longest_match a b alo ahi blo bhi).1 ∧
        (find_longest_match a b alo ahi blo bhi).1 +
          (find_longest_match a b alo ahi blo bhi).2.2 ≤ ahi ∧
        blo ≤ (find_longest_match a b alo ahi blo bhi).2.1 ∧
        (find_longest_match a b alo ahi blo bhi).2.1 +
          (find_longest_match a b alo ahi blo bhi).2.2 ≤ bhi) := by
  have main : ∀ (n r : ℕ) (st : FlmState), alo ≤ r → FlmInv alo blo bhi st r →
      FlmInv alo blo bhi ((List.range' r n).foldl (flmRow a b blo bhi) st) (r + n) := by
    intro n
    induction n with
    | zero => intro r st h1 h2; simpa using h2
    | succ n ih =>
      intro r st h1 h2
      rw [List.range'_succ]
      show FlmInv alo blo bhi
        ((List.range' (r + 1) n).foldl (flmRow a b blo bhi) (flmRow a b blo bhi st r))
        (r + (n + 1))
      have h := ih (r + 1) (flmRow a b blo bhi st r) (by omega)
        (flmRow_inv a b alo blo bhi st r h1 h2)
      rw [show r + (n + 1) = r + 1 + n from by omega]
      exact h
  have hinit : FlmInv alo blo bhi ⟨alo, blo, 0, fun _ => 0⟩ alo := by
    refine ⟨Or.inl rfl, ?_⟩
    intro j
    exact ⟨Nat.zero_le _, fun h => absurd rfl h⟩
  by_cases hge : alo ≤ ahi
  · have h := main (ahi - alo) alo _ (le_refl alo) hinit
    rw [show alo + (ahi - alo) = ahi from by omega] at h
    rcases h.1 with h0 | hbounds
    · exact Or.inl h0
    · exact Or.inr hbounds
  · left
    have h0 : ahi - alo = 0 := by omega
    show (find_longest_match a b alo ahi blo bhi).2.2 = 0
    simp only [find_longest_match, h0]
    rfl

/-- The total matched-character count is bounded by both window sizes. -/
lemma matchesFrom_le (a b : List Char) :
    ∀ (fuel alo ahi blo bhi : ℕ),
      matchesFrom a b fuel alo ahi blo bhi ≤ ahi - alo ∧
      matchesFrom a b fuel alo ahi blo bhi ≤ bhi - blo := by
  intro fuel
  induction fuel with
  | zero => intro alo ahi blo bhi; simp [matchesFrom]
  | succ fuel ih =>
    intro alo ahi blo bhi
    simp only [matchesFrom]
    by_cases hk : (find_longest_match a b alo ahi blo bhi).2.2 = 0
    · rw [if_pos hk]
      simp
    · rw [if_neg hk]
      rcases flm_bounds a b alo ahi blo bhi with h0 | ⟨h1, h2, h3, h4⟩
      · exact absurd h0 hk
      · obtain ⟨il1, il2⟩ := ih alo (find_longest_match a b alo ahi blo bhi).1 blo
          (find_longest_match a b alo ahi blo bhi).2.1
        obtain ⟨ir1, ir2⟩ := ih ((find_longest_match a b alo ahi blo bhi).1 +
          (find_longest_match a b alo ahi blo bhi).2.2) ahi
          ((find_longest_match a b alo ahi blo bhi).2.1 +
            (find_longest_match a b alo ahi blo bhi).2.2) bhi
        constructor <;> omega

/-- The similarity ratio never exceeds 1. -/
lemma ratio_le_one (sa sb : String) : ratio sa sb ≤ 1 := by
  simp only [ratio]
  by_cases h : sa.data.length + sb.data.length = 0
  · rw [if_pos h]
  · rw [if_neg h]
    have hM := matchesFrom_le sa.data sb.data (sa.data.length + sb.data.length + 1) 0
      sa.data.length 0 sb.data.length
    rw [div_le_one (by exact_mod_cast Nat.pos_of_ne_zero h)]
    have hN : 2 * (matchesFrom sa.data sb.data (sa.data.length + sb.data.length + 1) 0
        sa.data.length 0 sb.data.length) ≤ sa.data.length + sb.data.length := by omega
    exact_mod_cast hN

/-- The best score of the inner loop never exceeds 1. -/
lemma bestCandidate_le_one (d : String) (htmls : List String) (used : List ℕ) :
    (bestCandidate d htmls used).1 ≤ 1 := by
  by_cases h : (bestCandidate d htmls used).2 = -1
  · rw [bestCandidate_none d htmls used h]
    norm_num
  · obtain ⟨jn, -, -, -, h4, -, -⟩ := bestCandidate_accept d htmls used h
    rw [← h4]
    exact ratio_le_one _ _

/-- C6 (counterexample): calling the aligner with the out-of-range
threshold 2 raises no error and produces a normal, complete result. -/
theorem c6_no_validation_counterexample :
    match_sentences_full ["a"] ["a"] 2 =
      [(spanMissing "a", "", true), ("", spanExtra "a", false)] := by
  have hneg : ¬((2 : ℚ) ≤ (bestCandidate "a" ["a"] []).1 ∧
      (bestCandidate "a" ["a"] []).2 ≠ -1) := by
    intro hcon
    have hle : (2 : ℚ) ≤ (bestCandidate "a" ["a"] []).1 := hcon.1
    rw [bc_a_a] at hle
    exact absurd hle (by norm_num : ¬((2 : ℚ) ≤ 1))
  show (processLeft ["a"] 2 ["a"] []).1 ++ extraRows ["a"] (processLeft ["a"] 2 ["a"] []).2 = _
  rw [processLeft_cons_neg ["a"] 2 "a" [] [] hneg]
  rfl

/-- C6 (amended): the aligner performs no threshold validation; an
out-of-range threshold is accepted and still yields a complete result.
In particular any threshold above 1 can never be met (scores are at most
1), so every left sentence becomes a missing row and every right
sentence an extra row. -/
theorem c6_out_of_range_threshold_no_error (docs htmls : List String) (t : ℚ) (ht : 1 < t) :
    match_sentences_full docs htmls t =
      (docs.map fun s => (spanMissing s, "", true)) ++
        (htmls.map fun h => ("", spanExtra h, false)) := by
  have hmain : ∀ (ds : List String) (used : List ℕ), processLeft htmls t ds used =
      (ds.map fun s => (spanMissing s, "", true), used) := by
    intro ds
    induction ds with
    | nil => intro used; rfl
    | cons d ds ih =>
      intro used
      refine (processLeft_cons_neg htmls t d ds used ?_).trans ?_
      · rintro ⟨hle, -⟩
        exact absurd (lt_of_lt_of_le ht hle) (not_lt.2 (bestCandidate_le_one d htmls used))
      · simp [ih]
  show (processLeft htmls t docs []).1 ++ extraRows htmls (processLeft htmls t docs []).2 = _
  rw [hmain docs []]
  show (docs.map fun s => (spanMissing s, "", true)) ++ extraRows htmls [] = _
  rw [extraRows, extraRows_aux_nil_used htmls 0]

/-- Witness for C6 as amended, at threshold 2 (outside [0,1]). -/
theorem c6_out_of_range_threshold_no_error_witness :
    match_sentences_full ["a"] ["b"] 2 =
      [(spanMissing "a", "", true), ("", spanExtra "b", false)] := by
  have h := c6_out_of_range_threshold_no_error ["a"] ["b"] 2 (by norm_num)
  simpa using h

/-- C8 (counterexample): `"inf"` is not a standard decimal
floating-point literal, yet `float("inf")` succeeds, so the token
normalizes to a value; observably, the pair `"inf"`/`"Infinity"` is
classified DecimalDiff where the claim calls for Diff. -/
theorem c8_decimal_literal_counterexample :
    normalize_number "inf" = some PyFloat.inf ∧ specDecimalLit "inf" = none ∧
      classifyPair "inf" "Infinity" = TokenClass.DecimalDiff := by
  refine ⟨?_, ?_, ?_⟩ <;> decide

/-- C8 (amended): `normalize_number` succeeds exactly when Python
`float()` accepts the token (which admits inf/nan spellings and digit
underscores beyond standard decimal literals); two tokens that both fail
to normalize are never considered numerically equal, so such a pair is
never classified DecimalDiff. -/
theorem c8_no_value_pair_never_decimal (a b : String)
    (ha : normalize_number a = none) (hb : normalize_number b = none) :
    classifyPair a b ≠ TokenClass.DecimalDiff := by
  unfold classifyPair
  by_cases h1 : a = b
  · rw [if_pos h1]
    decide
  · rw [if_neg h1]
    by_cases h2 : strLower a = strLower b
    · rw [if_pos h2]
      decide
    · rw [if_neg h2, ha, hb]
      decide

/-- Witness for C8 as amended: `float()` rejects a leading or trailing
underscore (PEP 515), so `"_1"` and `"1_"` both normalize to no value
and the pair classifies as Diff, not DecimalDiff. -/
theorem c8_no_value_pair_never_decimal_witness :
    classifyPair "_1" "1_" ≠ TokenClass.DecimalDiff :=
  c8_no_value_pair_never_decimal "_1" "1_" (by decide) (by decide)

/-! ## C1: the token differ versus the claim's per-position rules -/

/-- The pair classifier only ever produces the four both-present
classes. -/
lemma classifyPair_cases (a b : String) :
    classifyPair a b = .Equal ∨ classifyPair a b = .CaseDiff ∨
      classifyPair a b = .DecimalDiff ∨ classifyPair a b = .Diff := by
  unfold classifyPair
  by_cases h1 : a = b
  · rw [if_pos h1]
    exact Or.inl rfl
  rw [if_neg h1]
  by_cases h2 : strLower a = strLower b
  · rw [if_pos h2]
    exact Or.inr (Or.inl rfl)
  rw [if_neg h2]
  rcases hna : normalize_number a with - | x <;> rcases hnb : normalize_number b with - | y
  · exact Or.inr (Or.inr (Or.inr rfl))
  · exact Or.inr (Or.inr (Or.inr rfl))
  · exact Or.inr (Or.inr (Or.inr rfl))
  · by_cases heq : pfEq x y = true
    · refine Or.inr (Or.inr (Or.inl ?_))
      show (if pfEq x y = true then TokenClass.DecimalDiff else TokenClass.Diff) = _
      rw [if_pos heq]
    · refine Or.inr (Or.inr (Or.inr ?_))
      show (if pfEq x y = true then TokenClass.DecimalDiff else TokenClass.Diff) = _
      rw [if_neg heq]

lemma classifyPair_ne_extra (a b : String) : classifyPair a b ≠ .Extra := by
  rcases classifyPair_cases a b with h | h | h | h <;> rw [h] <;> decide

lemma classifyPair_ne_missing (a b : String) : classifyPair a b ≠ .Missing := by
  rcases classifyPair_cases a b with h | h | h | h <;> rw [h] <;> decide

/-- Out-of-left positions classify Extra. -/
lemma claimClass_nil_left (B : List String) (i : ℕ) : claimClass [] B i = .Extra := by
  unfold claimClass
  exact if_pos (Nat.zero_le i)

/-- Position 0 with both heads present classifies by the pair rules. -/
lemma claimClass_cons_zero (a b : String) (A B : List String) :
    claimClass (a :: A) (b :: B) 0 = classifyPair a b := by
  unfold claimClass classifyPair
  simp

/-- Shifting both sequences shifts the position. -/
lemma claimClass_cons_succ (a b : String) (A B : List String) (i : ℕ) :
    claimClass (a :: A) (b :: B) (i + 1) = claimClass A B i := by
  unfold claimClass
  simp only [List.length_cons, Nat.add_le_add_iff_right, List.getD_cons_succ]

/-- Shifting the left sequence against an exhausted right shifts the
position too. -/
lemma claimClass_cons_nil_succ (a : String) (A : List String) (i : ℕ) :
    claimClass (a :: A) [] (i + 1) = claimClass A [] i := by
  unfold claimClass
  simp only [List.length_cons, Nat.add_le_add_iff_right, List.length_nil, Nat.zero_le,
    if_true, List.getD_cons_succ]

lemma claimSideLeft_nil_left (B : List String) : claimSideLeft [] B = [] := by
  unfold claimSideLeft
  rw [List.filterMap_eq_nil_iff]
  intro i _
  rw [if_pos (claimClass_nil_left B i)]

lemma claimSideRight_nil_right (A : List String) : claimSideRight A [] = [] := by
  unfold claimSideRight
  rw [List.filterMap_eq_nil_iff]
  intro i hi
  have hlt : i < A.length := by simpa using List.mem_range.1 hi
  have hcl : claimClass A [] i = .Missing := by
    unfold claimClass
    rw [if_neg (by omega),
      if_pos (show ([] : List String).length ≤ i from Nat.zero_le i)]
  rw [if_pos hcl]

lemma claimSideRight_nil_left (B : List String) :
    claimSideRight [] B = B.map fun b => renderTok "extra" b := by
  induction B with
  | nil => rfl
  | cons b B ih =>
    unfold claimSideRight at ih ⊢
    rw [show max ([] : List String).length (b :: B).length = B.length + 1 from by
      simp, List.range_succ_eq_map, List.filterMap_cons, List.filterMap_map]
    rw [if_neg (by rw [claimClass_nil_left]; decide)]
    rw [show max ([] : List String).length B.length = B.length from by simp] at ih
    have hfun : ((fun i =>
        if claimClass [] (b :: B) i = TokenClass.Missing then none
        else some (rightMark ((b :: B).getD i "") (claimClass [] (b :: B) i))) ∘ Nat.succ) =
        fun i => if claimClass [] B i = TokenClass.Missing then none
          else some (rightMark (B.getD i "") (claimClass [] B i)) := by
      funext i
      simp only [Function.comp_apply, Nat.succ_eq_add_one, claimClass_nil_left,
        List.getD_cons_succ]
    rw [hfun, ih, List.map_cons]
    rw [claimClass_nil_left]
    rfl

lemma claimSideLeft_nil_right (A : List String) :
    claimSideLeft A [] = A.map fun a => renderTok "missing" a := by
  induction A with
  | nil => rfl
  | cons a A ih =>
    unfold claimSideLeft at ih ⊢
    rw [show max (a :: A).length ([] : List String).length = A.length + 1 from by
      simp, List.range_succ_eq_map, List.filterMap_cons, List.filterMap_map]
    have hcl0 : claimClass (a :: A) [] 0 = .Missing := by
      unfold claimClass
      rw [if_neg (by simp),
        if_pos (show ([] : List String).length ≤ 0 from Nat.zero_le 0)]
    rw [if_neg (by rw [hcl0]; decide)]
    rw [show max A.length ([] : List String).length = A.length from by simp] at ih
    have hfun : ((fun i =>
        if claimClass (a :: A) [] i = TokenClass.Extra then none
        else some (leftMark ((a :: A).getD i "") (claimClass (a :: A) [] i))) ∘ Nat.succ) =
        fun i => if claimClass A [] i = TokenClass.Extra then none
          else some (leftMark (A.getD i "") (claimClass A [] i)) := by
      funext i
      simp only [Function.comp_apply, Nat.succ_eq_add_one, claimClass_cons_nil_succ,
        List.getD_cons_succ]
    rw [hfun, ih, List.map_cons]
    rw [hcl0, List.getD_cons_zero]
    rfl

lemma claimSideLeft_cons (a b : String) (A B : List String) :
    claimSideLeft (a :: A) (b :: B) = leftMark a (classifyPair a b) :: claimSideLeft A B := by
  unfold claimSideLeft
  rw [show max (a :: A).length (b :: B).length = max A.length B.length + 1 from by
    simp only [List.length_cons]; omega]
  rw [List.range_succ_eq_map, List.filterMap_cons, List.filterMap_map]
  rw [if_neg (by rw [claimClass_cons_zero]; exact classifyPair_ne_extra a b)]
  have hfun : ((fun i =>
      if claimClass (a :: A) (b :: B) i = TokenClass.Extra then none
      else some (leftMark ((a :: A).getD i "") (claimClass (a :: A) (b :: B) i))) ∘
        Nat.succ) =
      fun i => if claimClass A B i = TokenClass.Extra then none
        else some (leftMark (A.getD i "") (claimClass A B i)) := by
    funext i
    simp only [Function.comp_apply, Nat.succ_eq_add_one, claimClass_cons_succ,
      List.getD_cons_succ]
  rw [hfun, claimClass_cons_zero, List.getD_cons_zero]

lemma claimSideRight_cons (a b : String) (A B : List String) :
    claimSideRight (a :: A) (b :: B) = rightMark b (classifyPair a b) :: claimSideRight A B := by
  unfold claimSideRight
  rw [show max (a :: A).length (b :: B).length = max A.length B.length + 1 from by
    simp only [List.length_cons]; omega]
  rw [List.range_succ_eq_map, List.filterMap_cons, List.filterMap_map]
  rw [if_neg (by rw [claimClass_cons_zero]; exact classifyPair_ne_missing a b)]
  have hfun : ((fun i =>
      if claimClass (a :: A) (b :: B) i = TokenClass.Missing then none
      else some (rightMark ((b :: B).getD i "") (claimClass (a :: A) (b :: B) i))) ∘
        Nat.succ) =
      fun i => if claimClass A B i = TokenClass.Missing then none
        else some (rightMark (B.getD i "") (claimClass A B i)) := by
    funext i
    simp only [Function.comp_apply, Nat.succ_eq_add_one, claimClass_cons_succ,
      List.getD_cons_succ]
  rw [hfun, claimClass_cons_zero, List.getD_cons_zero]

/-- C1: the token differ covers positions `0 .. max(len A, len B) - 1`
and classifies each position by exactly the claimed rules: out-of-left
positions render Extra on the right only, out-of-right positions render
Missing on the left only, and both-present positions get the single
class produced by the ordered rules byte-equal, case-fold-equal,
numeric-equal, Diff (`claimClass` is a function, so each position
resolves to exactly one class). -/
theorem c1_token_differ_classification (A B : List String) :
    highlightLists A B = (claimSideLeft A B, claimSideRight A B) := by
  induction A generalizing B with
  | nil =>
    cases B with
    | nil => rfl
    | cons b B =>
      show ([], (b :: B).map fun x => renderTok "extra" x) = _
      rw [claimSideLeft_nil_left, claimSideRight_nil_left]
  | cons a A ih =>
    cases B with
    | nil =>
      show ((a :: A).map fun x => renderTok "missing" x, []) = _
      rw [claimSideLeft_nil_right, claimSideRight_nil_right]
    | cons b B =>
      show (leftMark a (classifyPair a b) :: (highlightLists A B).1,
        rightMark b (classifyPair a b) :: (highlightLists A B).2) = _
      rw [ih B, claimSideLeft_cons, claimSideRight_cons]

/-! ## C9: the tokenizer -/

/-- A run character is never whitespace (so the scanner's first test
never conflicts with the others). -/
lemma runChar_not_ws (c : Char) (h : isRunChar c = true) : isPySpace c = false := by
  by_contra hws
  have hws' : isPySpace c = true := by
    cases hcw : isPySpace c
    · exact absurd hcw hws
    · rfl
  simp only [isPySpace, Bool.or_eq_true, beq_iff_eq] at hws'
  rcases hws' with ((((rfl | rfl) | rfl) | rfl) | rfl) | rfl <;> exact absurd h (by decide)

/-- A word character is not a period. -/
lemma isWordChar_ne_dot (c : Char) (h : isWordChar c = true) : (c == '.') = false := by
  by_cases hc : c = '.'
  · subst hc
    exact absurd h (by decide)
  · exact beq_eq_false_iff_ne.2 hc

/-- A run character that is not a period is a word character. -/
lemma runChar_not_dot_word (c : Char) (h : isRunChar c = true) (hd : (c == '.') = false) :
    isWordChar c = true := by
  unfold isRunChar at h
  rcases Bool.or_eq_true_iff.1 h with h' | h'
  · exact h'
  · rw [h'] at hd
    cases hd

/-- Dropping a prefix cannot consume a final non-matching element. -/
lemma dropWhile_concat_pos (p : Char → Bool) (c : Char) (hc : p c = false) :
    ∀ l : List Char, 0 < ((l ++ [c]).dropWhile p).length := by
  intro l
  induction l with
  | nil =>
    simp [List.dropWhile_cons, hc]
  | cons d l ih =>
    rw [List.cons_append, List.dropWhile_cons]
    by_cases hd : p d = true
    · rw [if_pos hd]
      exact ih
    · rw [if_neg hd]
      simp

/-- The word core of a run starting with a non-period is nonempty. -/
lemma trimDots_pos (c : Char) (cs : List Char) (hc : (c == '.') = false) :
    0 < (trimDots (c :: cs)).length := by
  unfold trimDots
  rw [List.length_reverse, List.reverse_cons]
  exact dropWhile_concat_pos _ c hc cs.reverse

/-- Every run splits into its word core followed by trailing periods. -/
lemma trimDots_decomp (l : List Char) :
    ∃ dots, l = trimDots l ++ dots ∧ ∀ x ∈ dots, x = '.' := by
  refine ⟨(l.reverse.takeWhile (fun c => c == '.')).reverse, ?_, ?_⟩
  · unfold trimDots
    conv_lhs => rw [← l.reverse_reverse,
      ← List.takeWhile_append_dropWhile (p := fun c => c == '.') (l := l.reverse)]
    rw [List.reverse_append]
  · intro x hx
    rw [List.mem_reverse] at hx
    have hpx := List.mem_takeWhile_imp (p := fun c => c == '.') hx
    exact beq_iff_eq.1 hpx

/-- The head of a `dropWhile` fails the predicate. -/
lemma dropWhile_head_not (p : Char → Bool) :
    ∀ (l : List Char) (c : Char) (t : List Char), l.dropWhile p = c :: t → p c = false := by
  intro l
  induction l with
  | nil => intro c t h; simp [List.dropWhile] at h
  | cons d l ih =>
    intro c t h
    rw [List.dropWhile_cons] at h
    by_cases hd : p d = true
    · rw [if_pos hd] at h
      exact ih c t h
    · rw [if_neg hd] at h
      obtain ⟨rfl, -⟩ : d = c ∧ l = t := by
        injection h with h1 h2
        exact ⟨h1, h2⟩
      cases hpd : p d
      · rfl
      · exact absurd hpd hd

/-- The word core of a word-headed input is nonempty (packaged form). -/
lemma core_pos (c : Char) (cs : List Char) (hw : isWordChar c = true) :
    0 < (trimDots (List.takeWhile isRunChar (c :: cs))).length := by
  rw [List.takeWhile_cons_of_pos (by simp [isRunChar, hw])]
  exact trimDots_pos c _ (isWordChar_ne_dot c hw)

/-- The fuelled scanner is fuel-independent once the fuel covers the
input length. -/
lemma tokenizeAux_mono : ∀ (f₁ f₂ : ℕ) (l : List Char),
    l.length ≤ f₁ → l.length ≤ f₂ → tokenizeAux f₁ l = tokenizeAux f₂ l := by
  intro f₁
  induction f₁ with
  | zero =>
    intro f₂ l h1 _
    have hl : l = [] := List.length_eq_zero.1 (Nat.le_zero.1 h1)
    subst hl
    cases f₂ <;> rfl
  | succ f ih =>
    intro f₂ l h1 h2
    cases l with
    | nil => cases f₂ <;> rfl
    | cons c cs =>
      obtain ⟨f₂', rfl⟩ : ∃ k, f₂ = k + 1 := ⟨f₂ - 1, by simp at h2; omega⟩
      have hcs : cs.length ≤ f := by simp at h1; omega
      have hcs2 : cs.length ≤ f₂' := by simp at h2; omega
      simp only [tokenizeAux]
      by_cases hws : isPySpace c = true
      · rw [if_pos hws, if_pos hws]
        exact ih f₂' cs hcs hcs2
      · rw [if_neg hws, if_neg hws]
        by_cases hw : isWordChar c = true
        · rw [if_pos hw, if_pos hw]
          congr 1
          have hpos := core_pos c cs hw
          apply ih
          · rw [List.length_drop]
            simp only [List.length_cons]
            omega
          · rw [List.length_drop]
            simp only [List.length_cons]
            omega
        · rw [if_neg hw, if_neg hw]
          congr 1
          exact ih f₂' cs hcs hcs2

/-- Unfolding equation of the scanner on a nonempty input. -/
lemma tokenize_cons (c : Char) (cs : List Char) :
    tokenize (c :: cs) =
      if isPySpace c then tokenize cs
      else if isWordChar c then
        (trimDots (List.takeWhile isRunChar (c :: cs))).asString ::
          tokenize (List.drop (trimDots (List.takeWhile isRunChar (c :: cs))).length (c :: cs))
      else String.singleton c :: tokenize cs := by
  show tokenizeAux (cs.length + 1) (c :: cs) = _
  simp only [tokenizeAux]
  by_cases hws : isPySpace c = true
  · rw [if_pos hws, if_pos hws]
    rfl
  · rw [if_neg hws, if_neg hws]
    by_cases hw : isWordChar c = true
    · rw [if_pos hw, if_pos hw]
      congr 1
      have hpos := core_pos c cs hw
      exact tokenizeAux_mono cs.length
        (List.drop (trimDots (List.takeWhile isRunChar (c :: cs))).length (c :: cs)).length _
        (by rw [List.length_drop]; simp only [List.length_cons]; omega) (le_refl _)
    · rw [if_neg hw, if_neg hw]
      rfl

/-- The fuelled claim-side splitter is fuel-independent as well. -/
lemma tokenizeSpecAux_mono : ∀ (f₁ f₂ : ℕ) (l : List Char),
    l.length ≤ f₁ → l.length ≤ f₂ → tokenizeSpecAux f₁ l = tokenizeSpecAux f₂ l := by
  intro f₁
  induction f₁ with
  | zero =>
    intro f₂ l h1 _
    have hl : l = [] := List.length_eq_zero.1 (Nat.le_zero.1 h1)
    subst hl
    cases f₂ <;> rfl
  | succ f ih =>
    intro f₂ l h1 h2
    cases l with
    | nil => cases f₂ <;> rfl
    | cons c cs =>
      obtain ⟨f₂', rfl⟩ : ∃ k, f₂ = k + 1 := ⟨f₂ - 1, by simp at h2; omega⟩
      have hcs : cs.length ≤ f := by simp at h1; omega
      have hcs2 : cs.length ≤ f₂' := by simp at h2; omega
      simp only [tokenizeSpecAux]
      by_cases hws : isPySpace c = true
      · rw [if_pos hws, if_pos hws]
        exact ih f₂' cs hcs hcs2
      · rw [if_neg hws, if_neg hws]
        by_cases hw : isWordChar c = true
        · rw [if_pos hw, if_pos hw]
          have hlen : (List.dropWhile isRunChar (c :: cs)).length ≤ cs.length := by
            rw [List.dropWhile_cons_of_pos (by simp [isRunChar, hw])]
            exact (List.dropWhile_sublist isRunChar).length_le
          congr 2
          apply ih <;> omega
        · rw [if_neg hw, if_neg hw]
          congr 1
          exact ih f₂' cs hcs hcs2

/-- Unfolding equation of the claim-side splitter. -/
lemma tokenizeSpec_cons (c : Char) (cs : List Char) :
    tokenizeSpec (c :: cs) =
      if isPySpace c then tokenizeSpec cs
      else if isWordChar c then
        (trimDots (List.takeWhile isRunChar (c :: cs))).asString ::
          ((List.drop (trimDots (List.takeWhile isRunChar (c :: cs))).length
              (List.takeWhile isRunChar (c :: cs))).map String.singleton ++
            tokenizeSpec (List.dropWhile isRunChar (c :: cs)))
      else String.singleton c :: tokenizeSpec cs := by
  show tokenizeSpecAux (cs.length + 1) (c :: cs) = _
  simp only [tokenizeSpecAux]
  by_cases hws : isPySpace c = true
  · rw [if_pos hws, if_pos hws]
    rfl
  · rw [if_neg hws, if_neg hws]
    by_cases hw : isWordChar c = true
    · rw [if_pos hw, if_pos hw]
      have hlen : (List.dropWhile isRunChar (c :: cs)).length ≤ cs.length := by
        rw [List.dropWhile_cons_of_pos (by simp [isRunChar, hw])]
        exact (List.dropWhile_sublist isRunChar).length_le
      congr 2
      exact tokenizeSpecAux_mono cs.length (List.dropWhile isRunChar (c :: cs)).length _
        (by omega) (le_refl _)
    · rw [if_neg hw, if_neg hw]
      rfl

/-- The scanner turns a leading block of periods into one single-period
token each. -/
lemma tokenize_leading_dots : ∀ (dots : List Char), (∀ x ∈ dots, x = '.') →
    ∀ rest, tokenize (dots ++ rest) = dots.map String.singleton ++ tokenize rest := by
  intro dots
  induction dots with
  | nil => intro _ rest; simp
  | cons c dots ih =>
    intro hdots rest
    have hc : c = '.' := hdots c (List.mem_cons_self c dots)
    subst hc
    rw [List.cons_append, tokenize_cons, if_neg (by decide), if_neg (by decide)]
    rw [List.map_cons, ih (fun x hx => hdots x (List.mem_cons_of_mem _ hx)) rest]
    rfl

/-- C9's core equivalence: the regex scan equals the claim-side maximal
run splitting. -/
lemma tokenize_eq_spec : ∀ (n : ℕ) (l : List Char), l.length ≤ n →
    tokenize l = tokenizeSpec l := by
  intro n
  induction n with
  | zero =>
    intro l h
    have hl : l = [] := List.length_eq_zero.1 (Nat.le_zero.1 h)
    subst hl
    rfl
  | succ n ih =>
    intro l h
    cases l with
    | nil => rfl
    | cons c cs =>
      have hcs : cs.length ≤ n := by simp at h; omega
      rw [tokenize_cons, tokenizeSpec_cons]
      by_cases hws : isPySpace c = true
      · rw [if_pos hws, if_pos hws]
        exact ih cs hcs
      · rw [if_neg hws, if_neg hws]
        by_cases hw : isWordChar c = true
        · rw [if_pos hw, if_pos hw]
          have hrest : (List.dropWhile isRunChar (c :: cs)).length ≤ n := by
            rw [List.dropWhile_cons_of_pos (by simp [isRunChar, hw])]
            have := (List.dropWhile_sublist (l := cs) isRunChar).length_le
            omega
          set run := List.takeWhile isRunChar (c :: cs) with hrun
          set rest := List.dropWhile isRunChar (c :: cs) with hrest2
          set core := trimDots run with hcore
          obtain ⟨dots, hrd, hdots⟩ := trimDots_decomp run
          rw [← hcore] at hrd
          have hsplit : run ++ rest = c :: cs := by
            rw [hrun, hrest2]
            exact List.takeWhile_append_dropWhile isRunChar (c :: cs)
          have hdl : List.drop core.length (c :: cs) = dots ++ rest := by
            rw [← hsplit, hrd, List.append_assoc]
            exact List.drop_left _ _
          have hdl2 : List.drop core.length run = dots := by
            rw [hrd]
            exact List.drop_left _ _
          rw [hdl, tokenize_leading_dots dots hdots _, hdl2, ih _ hrest]
        · rw [if_neg hw, if_neg hw]
          rw [ih cs hcs]

/-- C9's coverage: concatenating the tokens in order recovers exactly
the non-whitespace characters of the input, in order. -/
lemma tokenize_join_filter : ∀ (n : ℕ) (l : List Char), l.length ≤ n →
    ((tokenize l).map String.data).flatten = l.filter (fun c => !(isPySpace c)) := by
  intro n
  induction n with
  | zero =>
    intro l h
    have hl : l = [] := List.length_eq_zero.1 (Nat.le_zero.1 h)
    subst hl
    rfl
  | succ n ih =>
    intro l h
    cases l with
    | nil => rfl
    | cons c cs =>
      have hcs : cs.length ≤ n := by simp at h; omega
      rw [tokenize_cons]
      by_cases hws : isPySpace c = true
      · rw [if_pos hws, List.filter_cons_of_neg (by simp [hws]), ih cs hcs]
      · rw [if_neg hws]
        have hnws : (!(isPySpace c)) = true := by
          cases hcw : isPySpace c
          · rfl
          · exact absurd hcw hws
        by_cases hw : isWordChar c = true
        · rw [if_pos hw]
          have hpos := core_pos c cs hw
          have hlen : (List.drop (trimDots (List.takeWhile isRunChar (c :: cs))).length
              (c :: cs)).length ≤ n := by
            rw [List.length_drop]
            simp only [List.length_cons]
            omega
          rw [List.map_cons, List.flatten_cons, ih _ hlen]
          set run := List.takeWhile isRunChar (c :: cs) with hrun
          set rest := List.dropWhile isRunChar (c :: cs) with hrest2
          set core := trimDots run with hcore
          obtain ⟨dots, hrd, hdots⟩ := trimDots_decomp run
          rw [← hcore] at hrd
          have hsplit : run ++ rest = c :: cs := by
            rw [hrun, hrest2]
            exact List.takeWhile_append_dropWhile isRunChar (c :: cs)
          have hdl : List.drop core.length (c :: cs) = dots ++ rest := by
            rw [← hsplit, hrd, List.append_assoc]
            exact List.drop_left _ _
          have hcorefilter : core.filter (fun c => !(isPySpace c)) = core := by
            rw [List.filter_eq_self]
            intro x hx
            have hxrun : x ∈ run := by
              rw [hrd]
              exact List.mem_append_left _ hx
            rw [runChar_not_ws x (List.mem_takeWhile_imp (hrun ▸ hxrun))]
            rfl
          have hdotsfilter : dots.filter (fun c => !(isPySpace c)) = dots := by
            rw [List.filter_eq_self]
            intro x hx
            rw [hdots x hx]
            rfl
          rw [hdl]
          conv_rhs => rw [← hsplit, hrd, List.append_assoc, List.filter_append,
            hcorefilter, List.filter_append, hdotsfilter]
          show core ++ (dots ++ rest).filter (fun c => !(isPySpace c)) =
            core ++ (dots ++ rest.filter (fun c => !(isPySpace c)))
          rw [List.filter_append, hdotsfilter]
        · rw [if_neg hw]
          rw [List.map_cons, List.flatten_cons, ih cs hcs]
          show [c] ++ cs.filter (fun c => !(isPySpace c)) =
            (c :: cs).filter (fun c => !(isPySpace c))
          rw [List.filter_cons, if_pos hnws]
          rfl

/-- C9's shape: every token is a word core (word characters with
internal periods, word characters at both ends) or one single
non-word, non-space character. -/
lemma tokenize_shape : ∀ (n : ℕ) (l : List Char), l.length ≤ n →
    ∀ t ∈ tokenize l, wordCore t.data = true ∨
      ∃ c, t = String.singleton c ∧ isWordChar c = false ∧ isPySpace c = false := by
  intro n
  induction n with
  | zero =>
    intro l h
    have hl : l = [] := List.length_eq_zero.1 (Nat.le_zero.1 h)
    subst hl
    intro t ht
    simp [tokenize, tokenizeAux] at ht
  | succ n ih =>
    intro l h
    cases l with
    | nil => intro t ht; simp [tokenize, tokenizeAux] at ht
    | cons c cs =>
      have hcs : cs.length ≤ n := by simp at h; omega
      intro t ht
      rw [tokenize_cons] at ht
      by_cases hws : isPySpace c = true
      · rw [if_pos hws] at ht
        exact ih cs hcs t ht
      · rw [if_neg hws] at ht
        by_cases hw : isWordChar c = true
        · rw [if_pos hw] at ht
          rcases List.mem_cons.1 ht with rfl | ht'
          · left
            have hruncons : List.takeWhile isRunChar (c :: cs) =
                c :: List.takeWhile isRunChar cs :=
              List.takeWhile_cons_of_pos (by simp [isRunChar, hw])
            have hpos := core_pos c cs hw
            obtain ⟨dots, hrd, -⟩ := trimDots_decomp (List.takeWhile isRunChar (c :: cs))
            have hne : trimDots (List.takeWhile isRunChar (c :: cs)) ≠ [] := by
              intro hnil
              rw [hnil] at hpos
              exact absurd hpos (by simp)
            have hmemrun : ∀ x ∈ trimDots (List.takeWhile isRunChar (c :: cs)),
                isRunChar x = true := by
              intro x hx
              have hxrun : x ∈ List.takeWhile isRunChar (c :: cs) := by
                rw [hrd]
                exact List.mem_append_left _ hx
              exact List.mem_takeWhile_imp hxrun
            unfold wordCore
            have h1 : (!(trimDots (List.takeWhile isRunChar (c :: cs))).isEmpty) = true := by
              cases he : trimDots (List.takeWhile isRunChar (c :: cs))
              · exact absurd he hne
              · rfl
            have h2 : (trimDots (List.takeWhile isRunChar (c :: cs))).all isRunChar = true := by
              rw [List.all_eq_true]
              exact hmemrun
            have h3 : isWordChar
                ((trimDots (List.takeWhile isRunChar (c :: cs))).headD ' ') = true := by
              cases he : trimDots (List.takeWhile isRunChar (c :: cs)) with
              | nil => exact absurd he hne
              | cons d tl =>
                have hdc : c = d := by
                  rw [he, hruncons, List.cons_append] at hrd
                  injection hrd with h1 h2
                rw [List.headD_cons, ← hdc]
                exact hw
            have h4 : isWordChar
                ((trimDots (List.takeWhile isRunChar (c :: cs))).getLastD ' ') = true := by
              rw [List.getLastD_eq_getLast?]
              show isWordChar ((((List.takeWhile isRunChar
                (c :: cs)).reverse.dropWhile (fun x => x == '.')).reverse).getLast?.getD ' ')
                = true
              rw [List.getLast?_reverse]
              cases hx : (List.takeWhile isRunChar (c :: cs)).reverse.dropWhile
                  (fun x => x == '.') with
              | nil =>
                exfalso
                apply hne
                show ((List.takeWhile isRunChar
                  (c :: cs)).reverse.dropWhile (fun x => x == '.')).reverse = []
                rw [hx]
                rfl
              | cons d tl =>
                show isWordChar d = true
                have hdnot : (d == '.') = false := dropWhile_head_not _ _ d tl hx
                have hdmem : d ∈ (List.takeWhile isRunChar (c :: cs)).reverse :=
                  (List.dropWhile_sublist _).mem (hx ▸ List.mem_cons_self d tl)
                have hdrun : isRunChar d = true :=
                  List.mem_takeWhile_imp (List.mem_reverse.1 hdmem)
                exact runChar_not_dot_word d hdrun hdnot
            show (!(trimDots (List.takeWhile isRunChar (c :: cs))).isEmpty &&
              (trimDots (List.takeWhile isRunChar (c :: cs))).all isRunChar &&
              isWordChar ((trimDots (List.takeWhile isRunChar (c :: cs))).headD ' ') &&
              isWordChar ((trimDots (List.takeWhile isRunChar (c :: cs))).getLastD ' '))
              = true
            rw [h1, h2, h3, h4]
            rfl
          · have hpos := core_pos c cs hw
            have hlen : (List.drop (trimDots (List.takeWhile isRunChar (c :: cs))).length
                (c :: cs)).length ≤ n := by
              rw [List.length_drop]
              simp only [List.length_cons]
              omega
            exact ih _ hlen t ht'
        · rw [if_neg hw] at ht
          rcases List.mem_cons.1 ht with rfl | ht'
          · right
            refine ⟨c, rfl, ?_, ?_⟩
            · cases hcw : isWordChar c
              · rfl
              · exact absurd hcw hw
            · cases hcw : isPySpace c
              · rfl
              · exact absurd hcw hws
          · exact ih cs hcs t ht'

/-- C9: the tokenizer produces exactly the claim-side sequence — the
maximal word-character-with-internal-periods runs (each possibly
followed by its trailing periods as single tokens) and each other
non-space character as its own token; token concatenation recovers
exactly the non-whitespace input in order (whitespace is only a
separator, never emitted); and every token is a word core or a single
non-word, non-space character. -/
theorem c9_tokenizer_runs_and_punct (l : List Char) :
    tokenize l = tokenizeSpec l ∧
    ((tokenize l).map String.data).flatten = l.filter (fun c => !(isPySpace c)) ∧
    ∀ t ∈ tokenize l, wordCore t.data = true ∨
      ∃ c, t = String.singleton c ∧ isWordChar c = false ∧ isPySpace c = false :=
  ⟨tokenize_eq_spec l.length l (le_refl _), tokenize_join_filter l.length l (le_refl _),
    tokenize_shape l.length l (le_refl _)⟩

/-- Witness for C9 at a concrete input: the token `"ab"` of `"ab."` is a
word core or single punctuation (here: a word core). -/
theorem c9_tokenizer_runs_and_punct_witness :
    wordCore ("ab" : String).data = true ∨
      ∃ c, ("ab" : String) = String.singleton c ∧ isWordChar c = false ∧
        isPySpace c = false :=
  (c9_tokenizer_runs_and_punct "ab.".data).2.2 "ab" (by decide)

end TextCompare
